import Mathlib

/-
Verification development for the qciscirq package: a bidirectional
translator between cirq circuits and the line-oriented QCIS text format,
plus a family of dynamical-decoupling timing-generator gates.

Shallow embedding conventions:
- Text is modelled as `Str := List Char`; the Python code's strings,
  `str.split`, `str.strip`, `str.startswith` and the three `re` patterns of
  `convert_qcis_to_cirq.py` are modelled as executable functions on `Str`.
- cirq qubits are identified with their textual names (the caller-supplied
  `map_func` in both directions is the identity on names); the "up to
  qubit-name re-mapping" part of round-trip statements is therefore
  definitional equality of circuits over names.
- Python `float` durations are modelled as `ℚ`; `math.floor` is `Int.floor`
  and Python `int()` is truncation toward zero.
- Python exceptions are modelled by `Except Err`.
-/

instance {ε α : Type} [DecidableEq ε] [DecidableEq α] : DecidableEq (Except ε α) := fun
  | .ok a, .ok b => if h : a = b then .isTrue (by rw [h]) else .isFalse (by simp [h])
  | .ok _, .error _ => .isFalse (by simp)
  | .error _, .ok _ => .isFalse (by simp)
  | .error e, .error f => if h : e = f then .isTrue (by rw [h]) else .isFalse (by simp [h])

namespace Qciscirq

/-- Text is a list of characters. -/
abbrev Str := List Char

/-- Coerce a Lean string literal to the character-list representation. -/
def strOf (s : String) : Str := s.toList

/-- The Python single-quote character, written by code point to keep source
scanning simple. -/
def squote : Char := Char.ofNat 39

/-- ASCII whitespace as matched by Python's `str.strip` and `\s`. -/
def isSpaceChar (c : Char) : Bool :=
  c = ' ' || c = '\t' || c = '\n' || c = '\r' || c = Char.ofNat 11 || c = Char.ofNat 12

/-- Decimal digit test, as in the regex class `\d` (ASCII). -/
def isDigitChar (c : Char) : Bool := '0' ≤ c && c ≤ '9'

/-- Uppercase ASCII letter, regex class `[A-Z]`. -/
def isUpperChar (c : Char) : Bool := 'A' ≤ c && c ≤ 'Z'

/-- ASCII letter, regex class `[a-zA-Z]`. -/
def isLetterChar (c : Char) : Bool :=
  ('A' ≤ c && c ≤ 'Z') || ('a' ≤ c && c ≤ 'z')

/-- Python `str.strip`: drop leading and trailing whitespace. -/
def strip (l : Str) : Str :=
  ((l.dropWhile isSpaceChar).reverse.dropWhile isSpaceChar).reverse

/-- Python `str.split(sep)` for a one-character separator: splitting the
empty string yields one empty field, and every separator occurrence starts a
new field. -/
def splitOnChar (sep : Char) : Str → List Str
  | [] => [[]]
  | c :: rest =>
      if c = sep then [] :: splitOnChar sep rest
      else
        match splitOnChar sep rest with
        | [] => [[c]]
        | f :: fs => (c :: f) :: fs

/-- Split a line at its last space, as the greedy regex groups
`(.*) (T)$` do: the first component is everything before the last space,
the second everything after it. -/
def splitLastSpace : Str → Option (Str × Str)
  | [] => none
  | c :: rest =>
      match splitLastSpace rest with
      | some (g, t) => some (c :: g, t)
      | none => if c = ' ' then some ([], rest) else none

/-- Join pieces with a separator, as Python string joining does. -/
def joinWith (sep : Str) : List Str → Str
  | [] => []
  | [l] => l
  | l :: ls => l ++ sep ++ joinWith sep ls

/-- Helper state for `findQs`: digits collected so far after a `Q`. -/
def findQsAux : Str → Option Str → List Str
  | [], none => []
  | [], some ds => if ds.isEmpty then [] else ['Q' :: ds]
  | c :: rest, none =>
      if c = 'Q' then findQsAux rest (some []) else findQsAux rest none
  | c :: rest, some ds =>
      if isDigitChar c then findQsAux rest (some (ds ++ [c]))
      else if ds.isEmpty then
        if c = 'Q' then findQsAux rest (some []) else findQsAux rest none
      else
        ('Q' :: ds) ::
          (if c = 'Q' then findQsAux rest (some []) else findQsAux rest none)

/-- Python `re.findall(r'Q\d+', line)`: all non-overlapping maximal
substrings consisting of `Q` followed by at least one digit. -/
def findQs (l : Str) : List Str := findQsAux l none

/-- Does the string have the shape `Q\d+` (a whole-target match)? -/
def isQTarget : Str → Bool
  | c :: rest => c = 'Q' && !rest.isEmpty && rest.all isDigitChar
  | [] => false

/-- Does the string have the shape `G\d+` (a whole-target match)? -/
def isGTarget : Str → Bool
  | c :: rest => c = 'G' && !rest.isEmpty && rest.all isDigitChar
  | [] => false

/-- Decimal digits of a natural number. -/
def natStr (n : Nat) : Str := Nat.toDigits 10 n

/-- Python `str` of an integer. -/
def intStr (i : Int) : Str :=
  if i < 0 then '-' :: natStr i.natAbs else natStr i.natAbs

/-- Python `int()` applied to a real value: truncation toward zero
(the numerator `tdiv` the denominator). -/
def truncQ (q : ℚ) : Int := q.num.tdiv q.den

/-- The exceptions the package can raise, one constructor per `raise` site
(plus the implicit failure modes of `eval`, `assert` and `gate.on`). -/
inductive Err where
  /-- `convert_cirq_to_qcis.qmap`: coupler for a qubit pair not provided. -/
  | missingCoupler (a b : Str)
  /-- `convert_cirq_to_qcis.process_operations`: unconvertible operation. -/
  | unconvertibleOperation (tag : Str)
  /-- `gate_table.GateTable.to_qcis`: cirq gate with no opcode. -/
  | unknownGate (tag : Str)
  /-- `gate_table.GateTable.to_cirq`: opcode with no cirq gate. -/
  | unknownOpcode (g : Str)
  /-- `convert_qcis_to_cirq.process_operation`: coupler name not in the map. -/
  | missingCouplerOf (g : Str)
  /-- `convert_qcis_to_cirq.process_operation`: line matching no pattern. -/
  | unrecognizedInstruction (l : Str)
  /-- `cirq.Gate.on` called with the wrong number of qubits. -/
  | wrongArity
  /-- `cirq.measure` applied to an empty qubit list. -/
  | invalidMeasurement
  /-- `convert_qcis_to_cirq.process_context`: class not registered. -/
  | unknownExtension (n : Str)
  /-- `convert_qcis_to_cirq.process_context`: malformed `# Gate:` line or
  descriptor expression the evaluator cannot interpret. -/
  | badGateDescriptor (l : Str)
  /-- `convert_qcis_to_cirq.process_context`: context closed with no gate. -/
  | noGateInContext
  /-- `convert_qcis_to_cirq`: line buffer exhausted inside a context block. -/
  | unexpectedEnd
  /-- `dynamical_decoupling.validate_pi_gates`: axis not in the valid set. -/
  | invalidPulseAxis (g : Str)
  /-- `dynamical_decoupling.validate_pi_gates`: non-positive pulse count. -/
  | invalidPulseCount
  /-- `dynamical_decoupling.validate_pi_gates`: pulses exceed the duration. -/
  | durationExceeded
  /-- `assert` failure (`_qcis_conversion_` requires exactly one target). -/
  | assertionFailed
deriving DecidableEq, Repr

/-- The cirq gates appearing in the static gate table of `gate_table.py`:
X, Y, the four ±90° rotations, CZ, and the measurement gate *class*. -/
inductive CirqGate where
  | X | Y | SqrtX | SqrtXInv | SqrtY | SqrtYInv | CZ | MeasClass
deriving DecidableEq, Repr

namespace GateTable

/-- `GateTable.qcis_to_cirq_table` from `gate_table.py`. -/
def qcis_to_cirq_table : List (Str × CirqGate) :=
  [(strOf "X", .X), (strOf "Y", .Y),
   (strOf "X2P", .SqrtX), (strOf "X2M", .SqrtXInv),
   (strOf "Y2P", .SqrtY), (strOf "Y2M", .SqrtYInv),
   (strOf "CZ", .CZ), (strOf "M", .MeasClass)]

/-- `GateTable.cirq_to_qcis_table`: the inverse association. -/
def cirq_to_qcis_table : List (CirqGate × Str) :=
  qcis_to_cirq_table.map (fun e => (e.2, e.1))

/-- `GateTable.to_cirq`: opcode to cirq gate, `ValueError` if absent. -/
def to_cirq (g : Str) : Except Err CirqGate :=
  match (qcis_to_cirq_table.find? (fun e => e.1 = g)).map (·.2) with
  | some cg => .ok cg
  | none => .error (.unknownOpcode g)

/-- `GateTable.to_qcis`: cirq gate to opcode, `ValueError` if absent.
Total over `CirqGate` since that type is exactly the table's range. -/
def to_qcis (g : CirqGate) : Str :=
  ((cirq_to_qcis_table.find? (fun e => e.1 = g)).map (·.2)).getD []

end GateTable

/-! Dynamical decoupling (`dynamical_decoupling.py`). -/

/-- `VAlID_PI_GATE`. -/
def VALID_PI_GATE : List Str := [strOf "X", strOf "Y"]

/-- `validate_pi_gates`: construction-time validation shared by the three
dynamical-decoupling classes. -/
def validate_pi_gates (gate : Str) (num_gates : Int)
    (total_duration_ns single_pi_gate_duration_ns : ℚ) : Except Err Unit :=
  if gate ∉ VALID_PI_GATE then .error (.invalidPulseAxis gate)
  else if num_gates < 1 then .error .invalidPulseCount
  else if total_duration_ns ≤ (num_gates : ℚ) * single_pi_gate_duration_ns then
    .error .durationExceeded
  else .ok ()

/-- `calc_idle_ns_before_after_pi`: floor the per-gate duration, floor the
difference with the single-pulse duration, then halve (no third floor). -/
def calc_idle_ns_before_after_pi (num_gates : Int)
    (total_duration_ns single_pi_gate_duration_ns : ℚ) : ℚ :=
  let duration_per_gate_ns : Int := ⌊total_duration_ns / (num_gates : ℚ)⌋
  ((⌊(duration_per_gate_ns : ℚ) - single_pi_gate_duration_ns⌋ : ℚ)) / 2

/-- Which concrete dynamical-decoupling class a gate instance belongs to. -/
inductive DDClass where
  | CPMG | XY | XYYX
deriving DecidableEq, Repr

/-- A constructed dynamical-decoupling gate: the constructor parameters plus
the idle duration computed and stored by `__init__`
(`_idle_before_after_pi`). `numPair` is `num_pi_pair` / `num_xy_pair` /
`num_xyyx_pair`; `piGate` is only meaningful for CPMG (the XY and XYYX
classes have no such attribute, modelled as `none`). -/
structure DDGate where
  klass : DDClass
  numPair : Nat
  totalNs : ℚ
  singleNs : ℚ
  piGate : Option Str
  idleNs : ℚ
deriving DecidableEq, Repr

/-- `CPMG.__init__`: validate `(pi_gate, 2*num_pi_pair, ...)`, then store the
parameters and the computed idle time. -/
def mkCPMG (num_pi_pair : Nat) (total_duration_ns single_pi_gate_duration_ns : ℚ)
    (pi_gate : Str) : Except Err DDGate :=
  match validate_pi_gates pi_gate (2 * num_pi_pair)
      total_duration_ns single_pi_gate_duration_ns with
  | .error e => .error e
  | .ok _ =>
    .ok { klass := .CPMG, numPair := num_pi_pair, totalNs := total_duration_ns,
          singleNs := single_pi_gate_duration_ns, piGate := some pi_gate,
          idleNs := calc_idle_ns_before_after_pi (2 * num_pi_pair)
            total_duration_ns single_pi_gate_duration_ns }

/-- `XY.__init__`: validate `('X', 2*num_xy_pair, ...)` and store. -/
def mkXY (num_xy_pair : Nat) (total_duration_ns single_pi_gate_duration_ns : ℚ) :
    Except Err DDGate :=
  match validate_pi_gates (strOf "X") (2 * num_xy_pair)
      total_duration_ns single_pi_gate_duration_ns with
  | .error e => .error e
  | .ok _ =>
    .ok { klass := .XY, numPair := num_xy_pair, totalNs := total_duration_ns,
          singleNs := single_pi_gate_duration_ns, piGate := none,
          idleNs := calc_idle_ns_before_after_pi (2 * num_xy_pair)
            total_duration_ns single_pi_gate_duration_ns }

/-- `XYYX.__init__`: validate `('X', 4*num_xyyx_pair, ...)` and store. -/
def mkXYYX (num_xyyx_pair : Nat) (total_duration_ns single_pi_gate_duration_ns : ℚ) :
    Except Err DDGate :=
  match validate_pi_gates (strOf "X") (4 * num_xyyx_pair)
      total_duration_ns single_pi_gate_duration_ns with
  | .error e => .error e
  | .ok _ =>
    .ok { klass := .XYYX, numPair := num_xyyx_pair, totalNs := total_duration_ns,
          singleNs := single_pi_gate_duration_ns, piGate := none,
          idleNs := calc_idle_ns_before_after_pi (4 * num_xyyx_pair)
            total_duration_ns single_pi_gate_duration_ns }

/-- `pi_pulse_sequence` of each class.  For CPMG the stored axis is looked
up in the gate table (validation guarantees it is `X` or `Y`); an invalid
stored axis surfaces as the table's `ValueError`. -/
def piPulseSequence (g : DDGate) : Except Err (List CirqGate) :=
  match g.klass with
  | .CPMG => do
      let cg ← GateTable.to_cirq (g.piGate.getD [])
      .ok (List.replicate (2 * g.numPair) cg)
  | .XY => .ok (List.replicate g.numPair [CirqGate.X, CirqGate.Y]).flatten
  | .XYYX => .ok ((List.replicate g.numPair [CirqGate.X, CirqGate.Y]).flatten
      ++ (List.replicate g.numPair [CirqGate.Y, CirqGate.X]).flatten)

/-- The local helper `idle_qcis` of `_qcis_conversion_`. -/
def idle_qcis (q : Str) (t : Int) : Str :=
  strOf "I " ++ q ++ [' '] ++ intStr t ++ ['\n']

/-- The body of `DynamicalDecoupling._qcis_conversion_` (before the
`context_wrapper` decoration): edge idle, pulses separated by doubled inner
idles, edge idle without its trailing newline.  The `assert` on the target
count is modelled as a failure. -/
def ddConversionBody (g : DDGate) (targets : List Str) : Except Err Str :=
  match targets with
  | [qubit] => do
      let seq ← piPulseSequence g
      let qcis_gate_sequence :=
        seq.map (fun cg => GateTable.to_qcis cg ++ [' '] ++ qubit ++ ['\n'])
      let idle_ns := g.idleNs
      let edge_idle := idle_qcis qubit (truncQ idle_ns)
      let main_sequence := joinWith (idle_qcis qubit (truncQ (2 * idle_ns))) qcis_gate_sequence
      .ok (edge_idle ++ main_sequence ++ edge_idle.dropLast)
  | _ => .error .assertionFailed

/-- Python name of each dynamical-decoupling class. -/
def DDClass.pyName : DDClass → Str
  | .CPMG => strOf "CPMG"
  | .XY => strOf "XY"
  | .XYYX => strOf "XYYX"

/-- Exact-rational rendering of a duration.  The Python code prints the
`repr` of the stored `int`/`float` value; since durations are modelled as
`ℚ` this prints the integer value when the rational is integral and a
fraction otherwise. -/
def ratStr (q : ℚ) : Str :=
  if q.den = 1 then intStr q.num
  else intStr q.num ++ ['/'] ++ natStr q.den

/-- `__repr__` of the three dynamical-decoupling classes: the constructor
name qualified by `qciscirq.` with every parameter as a keyword argument
(`pi_gate` appears only in `CPMG.__repr__`). -/
def reprDD (g : DDGate) : Str :=
  match g.klass with
  | .CPMG =>
      strOf "qciscirq.CPMG(num_pi_pair=" ++ natStr g.numPair
        ++ strOf ", total_duration_ns=" ++ ratStr g.totalNs
        ++ strOf ", single_pi_gate_duration_ns=" ++ ratStr g.singleNs
        ++ strOf ", pi_gate=" ++ [squote] ++ g.piGate.getD [] ++ [squote, ')']
  | .XY =>
      strOf "qciscirq.XY(num_xy_pair=" ++ natStr g.numPair
        ++ strOf ", total_duration_ns=" ++ ratStr g.totalNs
        ++ strOf ", single_pi_gate_duration_ns=" ++ ratStr g.singleNs ++ [')']
  | .XYYX =>
      strOf "qciscirq.XYYX(num_xyyx_pair=" ++ natStr g.numPair
        ++ strOf ", total_duration_ns=" ++ ratStr g.totalNs
        ++ strOf ", single_pi_gate_duration_ns=" ++ ratStr g.singleNs ++ [')']

/-- Python `repr` of a string: single quotes around the characters. -/
def pyStrRepr (s : Str) : Str := squote :: s ++ [squote]

/-- Python `repr` of a list of strings. -/
def pyListRepr (ls : List Str) : Str :=
  '[' :: joinWith (strOf ", ") (ls.map pyStrRepr) ++ [']']

/-- `context.CONTEXT_START`. -/
def CONTEXT_START : Str := strOf "# CIRQ_CONTEXT_START"

/-- `context.CONTEXT_END`. -/
def CONTEXT_END : Str := strOf "# CIRQ_CONTEXT_END"

/-- `context.context_wrapper`: wrap an emitted block between the context
markers, preceded by the gate's `repr` and target list as comments. -/
def context_wrapper_out (g : DDGate) (targets : List Str) (body : Str) : Str :=
  joinWith ['\n']
    [CONTEXT_START,
     strOf "# Gate: " ++ reprDD g,
     strOf "# Targets: " ++ pyListRepr targets,
     body,
     CONTEXT_END]

/-- The decorated `_qcis_conversion_`: body wrapped in the context. -/
def ddConversion (g : DDGate) (targets : List Str) : Except Err Str :=
  (ddConversionBody g targets).map (context_wrapper_out g targets)

/-- Structured form of the descriptor expression a dynamical-decoupling
gate's `__repr__` produces and `process_context` evaluates: the constructor
name and its keyword arguments.  The Python pair is the `repr` string and
`eval`; it is modelled structurally because Python's `repr` of numbers
round-trips exactly through `eval`. -/
structure DDescriptor where
  className : Str
  numPair : Nat
  totalNs : ℚ
  singleNs : ℚ
  piGate : Option Str
deriving DecidableEq, Repr

/-- The descriptor of a constructed gate, as printed by its `__repr__`. -/
def ddDescriptor (g : DDGate) : DDescriptor :=
  ⟨g.klass.pyName, g.numPair, g.totalNs, g.singleNs, g.piGate⟩

/-- `REGISTERED_EXTENSIONS` membership plus the constrained `eval` of
`process_context`: look the constructor name up and apply the registered
constructor to the keyword arguments (a `pi_gate` argument is accepted only
by `CPMG`; elsewhere it would be a `TypeError`). -/
def evalDescriptor (d : DDescriptor) : Except Err DDGate :=
  if d.className = strOf "CPMG" then
    mkCPMG d.numPair d.totalNs d.singleNs (d.piGate.getD (strOf "X"))
  else if d.className = strOf "XY" then
    match d.piGate with
    | some _ => .error (.badGateDescriptor d.className)
    | none => mkXY d.numPair d.totalNs d.singleNs
  else if d.className = strOf "XYYX" then
    match d.piGate with
    | some _ => .error (.badGateDescriptor d.className)
    | none => mkXYYX d.numPair d.totalNs d.singleNs
  else .error (.unknownExtension d.className)

/-! The circuit data model.  A cirq circuit is an ordered list of moments;
a moment is an ordered collection of operations; an operation is either a
table gate applied to qubits, a measurement, a dynamical-decoupling
extension gate, a `cirq.CircuitOperation` (a sub-circuit with a repetition
count), or an opaque foreign gate that is either in the ignored set or
unconvertible.  The three types are mutually inductive because a
sub-circuit operation contains a circuit. -/

/-- The single-qubit gates of the static table. -/
inductive SQGate where
  | X | Y | SqrtX | SqrtXInv | SqrtY | SqrtYInv
deriving DecidableEq, Repr

/-- Embedding of the single-qubit table gates into the table's range. -/
def SQGate.toCirq : SQGate → CirqGate
  | .X => .X
  | .Y => .Y
  | .SqrtX => .SqrtX
  | .SqrtXInv => .SqrtXInv
  | .SqrtY => .SqrtY
  | .SqrtYInv => .SqrtYInv

/-- Which cirq gates are single-qubit table gates (`cirq.Gate.on` with one
qubit succeeds exactly for these). -/
def sqOfCirq : CirqGate → Option SQGate
  | .X => some .X
  | .Y => some .Y
  | .SqrtX => some .SqrtX
  | .SqrtXInv => some .SqrtXInv
  | .SqrtY => some .SqrtY
  | .SqrtYInv => some .SqrtYInv
  | .CZ => none
  | .MeasClass => none

/-- The opcode of a single-qubit table gate. -/
def SQGate.opcode (g : SQGate) : Str := GateTable.to_qcis g.toCirq

mutual
/-- One cirq operation, as the translators see it. -/
inductive Operation where
  /-- A single-qubit table gate on a named qubit. -/
  | sq (g : SQGate) (q : Str)
  /-- `cirq.CZ` on an ordered pair of named qubits. -/
  | cz (a b : Str)
  /-- A measurement with its key and ordered measured qubits. -/
  | meas (key : Str) (qs : List Str)
  /-- A dynamical-decoupling extension gate on its targets. -/
  | dd (g : DDGate) (targets : List Str)
  /-- A `cirq.CircuitOperation`: inner circuit plus repetition count. -/
  | subcircuit (inner : Circuit) (reps : Nat)
  /-- Any other gate: in the (default-extended) ignored set or not. -/
  | other (tag : Str) (qs : List Str) (isIgnored : Bool)
deriving DecidableEq
/-- A moment: ordered collection of operations. -/
inductive Moment where
  | nil
  | cons (op : Operation) (rest : Moment)
deriving DecidableEq
/-- A circuit: ordered list of moments. -/
inductive Circuit where
  | nil
  | cons (m : Moment) (rest : Circuit)
deriving DecidableEq
end

/-- View a moment as a list of operations. -/
def Moment.toList : Moment → List Operation
  | .nil => []
  | .cons op rest => op :: rest.toList

/-- Build a moment from a list of operations. -/
def Moment.ofList : List Operation → Moment
  | [] => .nil
  | op :: rest => .cons op (Moment.ofList rest)

/-- View a circuit as a list of moments. -/
def Circuit.toList : Circuit → List Moment
  | .nil => []
  | .cons m rest => m :: rest.toList

/-- Build a circuit from a list of moments. -/
def Circuit.ofList : List Moment → Circuit
  | [] => .nil
  | m :: rest => .cons m (Circuit.ofList rest)

/-- Concatenate two circuits (cirq appends whole moments intact). -/
def Circuit.append : Circuit → Circuit → Circuit
  | .nil, c => c
  | .cons m rest, c => .cons m (rest.append c)

/-- Build a circuit from moment operation lists. -/
def Circuit.ofMomentLists (ms : List (List Operation)) : Circuit :=
  Circuit.ofList (ms.map Moment.ofList)

/-- The resource names an operation acts on (`op.qubits` in cirq); for a
sub-circuit operation the reverse translator never constructs one and the
qubit set is irrelevant to every statement below, so it is left empty. -/
def Operation.targets : Operation → List Str
  | .sq _ q => [q]
  | .cz a b => [a, b]
  | .meas _ qs => qs
  | .dd _ ts => ts
  | .subcircuit _ _ => []
  | .other _ qs _ => qs

/-! The forward translator (`convert_cirq_to_qcis.py`). -/

/-- A coupler map: coupler name to ordered qubit-name pair
(`couplers: Dict[str, Tuple[str, str]]`). -/
abbrev CMap := List (Str × (Str × Str))

/-- Unordered comparison of a registered qubit pair against a pair of
names, as comparing `frozenset`s does. -/
def pairMatches (p : Str × Str) (a b : Str) : Bool :=
  (p.1 = a && p.2 = b) || (p.1 = b && p.2 = a)

/-- The inverted map `map_qubit_pair_to_coupler` consulted by `qmap`:
`frozenset` of the two qubit names to coupler name, later dictionary
entries overriding earlier ones.  Returns `none` when the coupler map was
omitted or the pair is not registered. -/
def pairCoupler (couplers : Option CMap) (a b : Str) : Option Str :=
  match couplers with
  | none => none
  | some K => (K.reverse.find? (fun e => pairMatches e.2 a b)).map (·.1)

/-- Python `dict.get` on a coupler map. -/
def dictGet (K : CMap) (k : Str) : Option (Str × Str) :=
  (K.find? (fun e => e.1 = k)).map (·.2)

/-- `CirqToQcisHelper.block`: the emitted barrier line. -/
def blockLine (qagents : List Str) : Str :=
  strOf "B " ++ joinWith [' '] qagents

/-- `num_block_in_buffer`: buffer entries that start with `B`. -/
def num_block_in_buffer (buffer : List Str) : Nat :=
  buffer.countP (fun ins => ins.head? = some 'B')

/-- Configuration of one forward translation: the blockable resource set
and the optional coupler map.  The ignored-gate set is carried per
operation (`Operation.other`'s flag records membership in the union of the
default and caller-supplied ignored sets). -/
structure FwdCfg where
  all_blockable_qagents : List Str
  couplers : Option CMap
deriving DecidableEq

mutual
/-- The per-operation step of `CirqToQcisHelper.process_operations`:
resolve targets through `qmap` (coupler resolution for a `CZPowGate`),
then dispatch on custom conversion, `CircuitOperation`, table lookup and
the ignored set, in the order of the source. -/
def processOp (cfg : FwdCfg) (buffer : List Str) (op : Operation) :
    Except Err (List Str) :=
  match op with
  | .sq g q => .ok (buffer ++ [SQGate.opcode g ++ [' '] ++ q])
  | .cz a b =>
      match pairCoupler cfg.couplers a b with
      | none => .error (.missingCoupler a b)
      | some coupler => .ok (buffer ++ [strOf "CZ " ++ coupler])
  | .meas _key qs => .ok (buffer ++ [strOf "M " ++ joinWith [' '] qs])
  | .dd g targets => do
      let s ← ddConversion g targets
      .ok (buffer ++ [s])
  | .subcircuit inner reps => do
      let child ← processMoments cfg [] inner
      .ok (buffer ++ (List.replicate reps child).flatten)
  | .other tag _qs isIg =>
      if isIg then .ok buffer else .error (.unconvertibleOperation tag)

/-- `CirqToQcisHelper.process_operations` over a moment. -/
def processOps (cfg : FwdCfg) (buffer : List Str) : Moment → Except Err (List Str)
  | .nil => .ok buffer
  | .cons op rest => do processOps cfg (← processOp cfg buffer op) rest

/-- `CirqToQcisHelper.process_moments`, with the per-moment barrier logic
of `process_moment` inlined: after the operations, append a barrier over
all blockable resources unless the number of `B`-entries changed or the
buffer did not grow. -/
def processMoments (cfg : FwdCfg) (buffer : List Str) : Circuit → Except Err (List Str)
  | .nil => .ok buffer
  | .cons m rest => do
      let buf' ← processOps cfg buffer m
      let buf'' :=
        if num_block_in_buffer buf' = num_block_in_buffer buffer ∧
            buf'.length ≠ buffer.length
        then buf' ++ [blockLine cfg.all_blockable_qagents]
        else buf'
      processMoments cfg buf'' rest
end

/-- `CirqToQcisHelper.process_moment` as a standalone function (the body
inlined in `processMoments`). -/
def process_moment (cfg : FwdCfg) (buffer : List Str) (m : Moment) :
    Except Err (List Str) := do
  let buf' ← processOps cfg buffer m
  if num_block_in_buffer buf' = num_block_in_buffer buffer ∧
      buf'.length ≠ buffer.length
  then .ok (buf' ++ [blockLine cfg.all_blockable_qagents])
  else .ok buf'

/-- `cirq_to_qcis`: run the helper over the circuit and join the buffer
with newlines, appending a trailing newline (`CirqToQcisHelper.output`). -/
def cirq_to_qcis (circuit : Circuit) (all_blockable_qagents : List Str)
    (couplers : Option CMap) : Except Err Str :=
  (processMoments ⟨all_blockable_qagents, couplers⟩ [] circuit).map
    (fun buffer => joinWith ['\n'] buffer ++ ['\n'])

/-! The reverse translator (`convert_qcis_to_cirq.py`). -/

/-- Match the single-qubit pattern `^((?!M)[A-Z].*) (Q\d+)$`: split at the
last space (the greedy group), require the opcode part to start with an
uppercase letter other than `M`, and the target to be `Q` plus digits. -/
def matchSingleQubit (line : Str) : Option (Str × Str) :=
  match splitLastSpace line with
  | some (g, t) =>
      if (match g with
          | c :: _ => isUpperChar c && c ≠ 'M'
          | [] => false) && isQTarget t
      then some (g, t) else none
  | none => none

/-- Match the coupler pattern `^([a-zA-Z].+) (G\d+)$`: opcode of at least
two characters starting with a letter, target `G` plus digits. -/
def matchCouplerLine (line : Str) : Option (Str × Str) :=
  match splitLastSpace line with
  | some (g, t) =>
      if (match g with
          | c :: rest => isLetterChar c && !rest.isEmpty
          | [] => false) && isGTarget t
      then some (g, t) else none
  | none => none

/-- Match the measurement pattern `^M[\sQ\d+]+$` (the `+` inside the class
is a literal plus sign). -/
def matchMeasLine (line : Str) : Bool :=
  match line with
  | 'M' :: rest =>
      !rest.isEmpty &&
        rest.all (fun c => isSpaceChar c || c = 'Q' || isDigitChar c || c = '+')
  | _ => false

/-- Do the target lists of two operations intersect
(`Moment.operates_on`)? -/
def opsOverlap (o p : Operation) : Bool :=
  o.targets.any (fun q => q ∈ p.targets)

/-- Does any operation of the moment act on a target of `op`? -/
def momOverlaps (m : List Operation) (op : Operation) : Bool :=
  m.any (fun o => opsOverlap o op)

/-- Add an operation to the moment at the given index, appending a fresh
moment when the index is one past the end. -/
def addOpAt : List (List Operation) → Nat → Operation → List (List Operation)
  | [], _, op => [[op]]
  | m :: rest, 0, op => (m ++ [op]) :: rest
  | m :: rest, i + 1, op => m :: addOpAt rest i op

/-- The moment index where `cirq.Circuit.append` places an operation under
its default earliest strategy: one past the last moment whose operations
overlap the new operation's targets (zero when no moment overlaps). -/
def placeIdx (ms : List (List Operation)) (op : Operation) : Nat :=
  match ms.reverse.findIdx? (fun m => momOverlaps m op) with
  | none => 0
  | some k => ms.length - k

/-- `tick_circuit.append(...)`: place the operation at the earliest
available moment of the open tick circuit. -/
def appendOpEarliest (ms : List (List Operation)) (op : Operation) :
    List (List Operation) :=
  addOpAt ms (placeIdx ms op) op

/-- The mutable state of `QcisToCirqHelper`: the committed circuit, the
open tick circuit, and the `end_with_block` flag. -/
structure RevSt where
  full : Circuit
  tick : List (List Operation)
  endWithBlock : Bool
deriving DecidableEq

/-- `QcisToCirqHelper.process_block`: commit the open tick circuit (an
empty moment when it is empty) and reset it. -/
def processBlockSt (st : RevSt) : RevSt :=
  { st with
    full := st.full.append
      (Circuit.ofMomentLists (if st.tick.isEmpty then [[]] else st.tick)),
    tick := [] }

/-- `QcisToCirqHelper.process_operation`: skip ignored-prefixed lines, then
try the three instruction patterns in order; a line matching none of them
is the `NotImplementedError` case.  Pattern hits go through the gate table
(which can fail first) and then `cirq.Gate.on`, whose arity check fails
for a table gate applied to the wrong number of qubits. -/
def processOperation (couplers : CMap) (ignored_instructions : List Str)
    (st : RevSt) (operation : Str) : Except Err RevSt :=
  if ignored_instructions.any (fun ins => ins.isPrefixOf operation) then .ok st
  else
    match matchSingleQubit operation with
    | some (gate, qubit) => do
        let cirq_gate ← GateTable.to_cirq gate
        match sqOfCirq cirq_gate with
        | some g => .ok { st with tick := appendOpEarliest st.tick (.sq g qubit) }
        | none => .error .wrongArity
    | none =>
      match matchCouplerLine operation with
      | some (gate, coupler) => do
          let cirq_gate ← GateTable.to_cirq gate
          match dictGet couplers coupler with
          | none => .error (.missingCouplerOf coupler)
          | some qubit_pair =>
              match cirq_gate with
              | .CZ => .ok { st with
                  tick := appendOpEarliest st.tick (.cz qubit_pair.1 qubit_pair.2) }
              | _ => .error .wrongArity
      | none =>
        if matchMeasLine operation then
          let qubits := findQs operation
          if qubits.isEmpty then .error .invalidMeasurement
          else .ok { st with
            tick := appendOpEarliest st.tick (.meas (joinWith [','] qubits) qubits) }
        else .error (.unrecognizedInstruction operation)

/-- Split at the first occurrence of a character: the part before it and,
when found, the part after it. -/
def splitAtChar (sep : Char) : Str → Str × Option Str
  | [] => ([], none)
  | c :: rest =>
      if c = sep then ([], some rest)
      else
        match splitAtChar sep rest with
        | (a, b) => (c :: a, b)

/-- A Python literal appearing as a keyword-argument value in a descriptor
expression: a number or a (single-quoted) string. -/
inductive PyVal where
  | num (q : ℚ)
  | str (s : Str)
deriving DecidableEq, Repr

/-- Value of a digit string. -/
def digitsVal (ds : Str) : Nat :=
  ds.foldl (fun acc c => 10 * acc + (c.toNat - 48)) 0

/-- Parse a Python numeric literal of the shapes `eval` meets in a
descriptor: optional minus sign, digits, optional point and fraction
digits. -/
def parseNum (l : Str) : Option ℚ :=
  let signedPart : Bool × Str :=
    match l with
    | '-' :: r => (true, r)
    | _ => (false, l)
  let mag : Option ℚ :=
    match splitAtChar '.' signedPart.2 with
    | (ip, none) =>
        if !ip.isEmpty && ip.all isDigitChar then some (digitsVal ip : ℚ) else none
    | (ip, some fp) =>
        if !ip.isEmpty && !fp.isEmpty && ip.all isDigitChar && fp.all isDigitChar
        then some ((digitsVal ip : ℚ) + (digitsVal fp : ℚ) / ((10 : ℚ) ^ fp.length))
        else none
  mag.map (fun q => if signedPart.1 then -q else q)

/-- Parse a keyword-argument value: a quoted string or a number. -/
def parsePyVal (l : Str) : Option PyVal :=
  match l with
  | c :: rest =>
      if c = squote then
        match rest.reverse with
        | d :: mid => if d = squote then some (.str mid.reverse) else none
        | [] => none
      else (parseNum l).map .num
  | [] => none

/-- Parse `key=value` keyword arguments separated by commas (the argument
lists produced by the `__repr__`s contain no nested commas). -/
def parseCallArgs (args : Str) : Option (List (Str × PyVal)) :=
  if (strip args).isEmpty then some []
  else
    (splitOnChar ',' args).mapM (fun piece =>
      match splitAtChar '=' piece with
      | (k, some v) => (parsePyVal (strip v)).map (fun pv => (strip k, pv))
      | (_, none) => none)

/-- Look up a numeric keyword. -/
def kwNum (kws : List (Str × PyVal)) (k : Str) : Option ℚ :=
  match (kws.find? (fun e => e.1 = k)).map (·.2) with
  | some (PyVal.num q) => some q
  | _ => none

/-- Look up a numeric keyword that must be a nonnegative integer. -/
def kwNat (kws : List (Str × PyVal)) (k : Str) : Option Nat :=
  match kwNum kws k with
  | some q => if q.den = 1 && 0 ≤ q.num then some q.num.toNat else none
  | none => none

/-- Look up a string keyword. -/
def kwStrVal (kws : List (Str × PyVal)) (k : Str) : Option Str :=
  match (kws.find? (fun e => e.1 = k)).map (·.2) with
  | some (PyVal.str s) => some s
  | _ => none

/-- Is a keyword present? -/
def kwHas (kws : List (Str × PyVal)) (k : Str) : Bool :=
  kws.any (fun e => e.1 = k)

/-- Are all keyword names among the constructor's parameters (an unexpected
keyword is a `TypeError` under `eval`)? -/
def kwKeysOk (kws : List (Str × PyVal)) (allowed : List Str) : Bool :=
  kws.all (fun e => e.1 ∈ allowed)

/-- Models the constrained `eval(class_name_with_args, {class_name: class_})`
of `process_context` for an expression whose leading name is registered:
parse the keyword arguments and call the matching constructor, honouring
its Python defaults (`single_pi_gate_duration_ns=50.0`, `pi_gate='X'`).
Anything `eval` would reject (or a keyword the constructor does not take)
is a failure. -/
def evalGateExpr (expr : Str) : Except Err DDGate :=
  match splitAtChar '(' expr with
  | (_, none) => .error (.badGateDescriptor expr)
  | (clsName, some rest) =>
      match rest.reverse with
      | d :: midRev =>
          if d = ')' then
            match parseCallArgs midRev.reverse with
            | none => .error (.badGateDescriptor expr)
            | some kws =>
                if clsName = strOf "CPMG" then
                  if kwKeysOk kws [strOf "num_pi_pair", strOf "total_duration_ns",
                      strOf "single_pi_gate_duration_ns", strOf "pi_gate"] then
                    match kwNat kws (strOf "num_pi_pair"),
                        kwNum kws (strOf "total_duration_ns") with
                    | some n, some t =>
                        mkCPMG n t ((kwNum kws (strOf "single_pi_gate_duration_ns")).getD 50)
                          ((kwStrVal kws (strOf "pi_gate")).getD (strOf "X"))
                    | _, _ => .error (.badGateDescriptor expr)
                  else .error (.badGateDescriptor expr)
                else if clsName = strOf "XY" then
                  if kwKeysOk kws [strOf "num_xy_pair", strOf "total_duration_ns",
                      strOf "single_pi_gate_duration_ns"] then
                    match kwNat kws (strOf "num_xy_pair"),
                        kwNum kws (strOf "total_duration_ns") with
                    | some n, some t =>
                        mkXY n t ((kwNum kws (strOf "single_pi_gate_duration_ns")).getD 50)
                    | _, _ => .error (.badGateDescriptor expr)
                  else .error (.badGateDescriptor expr)
                else if clsName = strOf "XYYX" then
                  if kwKeysOk kws [strOf "num_xyyx_pair", strOf "total_duration_ns",
                      strOf "single_pi_gate_duration_ns"] then
                    match kwNat kws (strOf "num_xyyx_pair"),
                        kwNum kws (strOf "total_duration_ns") with
                    | some n, some t =>
                        mkXYYX n t ((kwNum kws (strOf "single_pi_gate_duration_ns")).getD 50)
                    | _, _ => .error (.badGateDescriptor expr)
                  else .error (.badGateDescriptor expr)
                else .error (.unknownExtension clsName)
          else .error (.badGateDescriptor expr)
      | [] => .error (.badGateDescriptor expr)

/-- `process_context`'s handling of a `# Gate: ` line: the regex
`^# Gate: qciscirq.(.*)$` (the dot matches any character), then a
`REGISTERED_EXTENSIONS` lookup of the name before the parenthesis, then
the constrained evaluation. -/
def parseGateLine (line : Str) : Except Err DDGate :=
  if (strOf "# Gate: qciscirq").isPrefixOf line then
    match line.drop (strOf "# Gate: qciscirq").length with
    | _ :: expr =>
        let clsName := (splitAtChar '(' expr).1
        if clsName = strOf "CPMG" || clsName = strOf "XY" || clsName = strOf "XYYX"
        then evalGateExpr expr
        else .error (.unknownExtension clsName)
    | [] => .error (.badGateDescriptor line)
  else .error (.badGateDescriptor line)

/-- Try to read `Q`, digits and a closing quote at the start of the
input (the opening quote already consumed): the captured name and the
remaining input. -/
def tryQuotedQ (l : Str) : Option (Str × Str) :=
  match l with
  | 'Q' :: rest =>
      let ds := rest.takeWhile isDigitChar
      if ds.isEmpty then none
      else
        match rest.dropWhile isDigitChar with
        | c :: tail => if c = squote then some ('Q' :: ds, tail) else none
        | [] => none
  | _ => none

/-- Scanner state for quoted target extraction. -/
inductive QuoteScan where
  | out
  | afterQuote
  | digits (ds : Str)

/-- Single pass of `re.findall` for quoted `Q`-names, as an explicit
left-to-right scanner. -/
def findQuotedQsAux : Str → QuoteScan → List Str
  | [], .digits _ => []
  | [], _ => []
  | c :: rest, .out =>
      if c = squote then findQuotedQsAux rest .afterQuote
      else findQuotedQsAux rest .out
  | c :: rest, .afterQuote =>
      if c = 'Q' then findQuotedQsAux rest (.digits [])
      else if c = squote then findQuotedQsAux rest .afterQuote
      else findQuotedQsAux rest .out
  | c :: rest, .digits ds =>
      if isDigitChar c then findQuotedQsAux rest (.digits (ds ++ [c]))
      else if c = squote then
        if ds.isEmpty then findQuotedQsAux rest .afterQuote
        else ('Q' :: ds) :: findQuotedQsAux rest .out
      else findQuotedQsAux rest .out

/-- `re.findall(r"\'(Q\d+)\'", line)`: quoted qubit names in order. -/
def findQuotedQs (line : Str) : List Str := findQuotedQsAux line .out

/-- The two states of the reverse line loop: normal classification, or
inside a context block accumulating the reconstructed gate and targets
(`process_context`'s loop, flattened into the line-by-line state). -/
inductive RevMode where
  | normal
  | inContext (gate : Option DDGate) (targets : List Str)
deriving DecidableEq

/-- `QcisToCirqHelper.process_line` (with `process_context` flattened):
strip the popped line; inside a context scan for the `# Gate:` and
`# Targets:` comments until the end marker, then append the reconstructed
extension operation; otherwise classify as context start, comment, barrier,
or instruction. -/
def stepLine (couplers : CMap) (ignored_instructions : List Str)
    (mode : RevMode) (st : RevSt) (rawLine : Str) :
    Except Err (RevMode × RevSt) :=
  let line := strip rawLine
  match mode with
  | .inContext gate targets =>
      if line = CONTEXT_END then
        match gate with
        | some g =>
            .ok (.normal,
              { st with tick := appendOpEarliest st.tick (.dd g targets),
                        endWithBlock := false })
        | none => .error .noGateInContext
      else if (strOf "# Gate: ").isPrefixOf line then do
        let g ← parseGateLine line
        .ok (.inContext (some g) targets, st)
      else if (strOf "# Targets: ").isPrefixOf line then
        .ok (.inContext gate (findQuotedQs line), st)
      else .ok (.inContext gate targets, st)
  | .normal =>
      if line = CONTEXT_START then .ok (.inContext none [], st)
      else if line.head? = some '#' then .ok (.normal, st)
      else if line.head? = some 'B' then
        .ok (.normal, { processBlockSt st with endWithBlock := true })
      else do
        let st' ← processOperation couplers ignored_instructions st line
        .ok (.normal, { st' with endWithBlock := false })

/-- The `while self.buffer:` loop of `process_circuit`. -/
def runLines (couplers : CMap) (ignored_instructions : List Str) :
    List Str → RevMode → RevSt → Except Err (RevMode × RevSt)
  | [], mode, st => .ok (mode, st)
  | l :: rest, mode, st => do
      let (mode', st') ← stepLine couplers ignored_instructions mode st l
      runLines couplers ignored_instructions rest mode' st'

/-- `process_circuit` from the pre-split line list onward: run the loop
from the empty state, fail if the input ends inside a context block
(popping from an empty buffer), commit the final open tick circuit unless
the last action was a barrier, and return the committed circuit.  The
final `transform_qubits` pass is the caller-supplied name map, which is
the identity on names in this embedding. -/
def qcisToCirqLines (couplers : CMap) (ignored_instructions : List Str)
    (lines : List Str) : Except Err Circuit := do
  let (mode, st) ← runLines couplers ignored_instructions lines .normal ⟨.nil, [], false⟩
  match mode with
  | .normal =>
      let stF := if st.endWithBlock then st else processBlockSt st
      .ok stF.full
  | .inContext _ _ => .error .unexpectedEnd

/-- `qcis_to_cirq`: split the text on newlines, keep the non-empty lines,
and process them (`couplers` defaults to the empty map when omitted). -/
def qcis_to_cirq (qcis : Str) (couplers : Option CMap)
    (ignored_instructions : List Str) : Except Err Circuit :=
  qcisToCirqLines (couplers.getD []) ignored_instructions
    ((splitOnChar '\n' qcis).filter (fun l => !l.isEmpty))

/-- The buffer line the forward translator emits for an operation of the
round-trip fragment (table single-qubit gate, CZ, measurement). -/
def simpleLineOf (K : CMap) : Operation → Str
  | .sq g q => SQGate.opcode g ++ [' '] ++ q
  | .cz a b => strOf "CZ " ++ (pairCoupler (some K) a b).getD []
  | .meas _ qs => strOf "M " ++ joinWith [' '] qs
  | _ => []

/-- Operations the static table translates and the reverse parser
reconstructs exactly: single-qubit table gates on `Q`-names, CZ on
`Q`-names whose ordered pair is registered consistently in both directions
of the coupler map, and measurements of `Q`-names whose key is the
comma-joined qubit names (the key the reverse translator rebuilds). -/
inductive SimpleOp (K : CMap) : Operation → Prop
  | sq (g : SQGate) (q : Str) (hq : isQTarget q = true) : SimpleOp K (.sq g q)
  | cz (a b g : Str) (ha : isQTarget a = true) (hb : isQTarget b = true)
      (hg : isGTarget g = true) (hfwd : pairCoupler (some K) a b = some g)
      (hrev : dictGet K g = some (a, b)) : SimpleOp K (.cz a b)
  | meas (qs : List Str) (hne : qs ≠ []) (hq : ∀ q ∈ qs, isQTarget q = true) :
      SimpleOp K (.meas (joinWith [','] qs) qs)

/-- A moment of the round-trip fragment: nonempty, all operations simple,
and pairwise-disjoint targets (the cirq `Moment` invariant). -/
def SimpleMoment (K : CMap) (m : Moment) : Prop :=
  m ≠ .nil ∧ (∀ op ∈ m.toList, SimpleOp K op) ∧
    ((m.toList.map Operation.targets).flatten).Nodup

/-- A circuit of the round-trip fragment: nonempty with simple moments. -/
def SimpleCircuit (K : CMap) (c : Circuit) : Prop :=
  c ≠ .nil ∧ ∀ m ∈ c.toList, SimpleMoment K m

/-- The lines the forward translator emits for one moment. -/
def momentLinesOf (K : CMap) (m : Moment) : List Str :=
  m.toList.map (simpleLineOf K)

/-- The whole forward buffer for a circuit of the fragment: each moment's
lines followed by its barrier. -/
def circuitLinesOf (K : CMap) (bl : List Str) (c : Circuit) : List Str :=
  (c.toList.map (fun m => momentLinesOf K m ++ [blockLine bl])).flatten

/-- The open tick circuit after a list of already-parsed operations: empty
when none, a single open moment otherwise. -/
def tickOf (pending : List Operation) : List (List Operation) :=
  if pending.isEmpty then [] else [pending]

/-- The class plus `_value_equality_values_`, as cirq's `value_equality`
decorator compares them: the constructor parameters only — the stored idle
time is not part of the tuple, and `pi_gate` belongs to the tuple only for
`CPMG` (the other classes have no such attribute). -/
def valueEqualityValues (g : DDGate) : Nat × ℚ × ℚ × Option Str :=
  (g.numPair, g.totalNs, g.singleNs,
    match g.klass with
    | .CPMG => g.piGate
    | _ => none)

/-- cirq `==` between two dynamical-decoupling gates: same class and equal
value-equality tuples. -/
def ddValueEq (a b : DDGate) : Bool :=
  a.klass == b.klass && valueEqualityValues a == valueEqualityValues b

/-- A gate actually produced by one of the three public constructors. -/
def ValidDD (g : DDGate) : Prop :=
  (∃ n t s a, mkCPMG n t s a = .ok g) ∨
  (∃ n t s, mkXY n t s = .ok g) ∨
  (∃ n t s, mkXYYX n t s = .ok g)

/-! Helper lemmas. -/

theorem except_error_bind {ε α β : Type} (e : ε) (f : α → Except ε β) :
    (Except.error e >>= f) = .error e := rfl

theorem except_ok_bind {ε α β : Type} (a : α) (f : α → Except ε β) :
    (Except.ok a >>= f) = f a := rfl

theorem validate_pi_gates_ok_iff {gate : Str} {n : Int} {t s : ℚ} :
    validate_pi_gates gate n t s = .ok () ↔
      gate ∈ VALID_PI_GATE ∧ 1 ≤ n ∧ (n : ℚ) * s < t := by
  unfold validate_pi_gates
  split_ifs with h1 h2 h3
  · constructor
    · intro hc; exact hc.elim
    · rintro ⟨-, hn, -⟩; omega
  · constructor
    · intro hc; exact hc.elim
    · rintro ⟨-, -, hlt⟩; linarith
  · exact iff_of_true rfl ⟨h1, by omega, not_le.mp h3⟩
  · constructor
    · intro hc; exact hc.elim
    · rintro ⟨hm, -⟩; exact absurd hm h1

theorem mkCPMG_ok_iff {n : Nat} {t s : ℚ} {a : Str} {g : DDGate} :
    mkCPMG n t s a = .ok g ↔
      validate_pi_gates a (2 * n) t s = .ok () ∧
        g = ⟨.CPMG, n, t, s, some a,
          calc_idle_ns_before_after_pi (2 * n) t s⟩ := by
  unfold mkCPMG
  cases h : validate_pi_gates a (2 * n) t s with
  | error e => simp [h]
  | ok u => cases u; simp [h, eq_comm]

theorem mkXY_ok_iff {n : Nat} {t s : ℚ} {g : DDGate} :
    mkXY n t s = .ok g ↔
      validate_pi_gates (strOf "X") (2 * n) t s = .ok () ∧
        g = ⟨.XY, n, t, s, none,
          calc_idle_ns_before_after_pi (2 * n) t s⟩ := by
  unfold mkXY
  cases h : validate_pi_gates (strOf "X") (2 * n) t s with
  | error e => simp [h]
  | ok u => cases u; simp [h, eq_comm]

theorem mkXYYX_ok_iff {n : Nat} {t s : ℚ} {g : DDGate} :
    mkXYYX n t s = .ok g ↔
      validate_pi_gates (strOf "X") (4 * n) t s = .ok () ∧
        g = ⟨.XYYX, n, t, s, none,
          calc_idle_ns_before_after_pi (4 * n) t s⟩ := by
  unfold mkXYYX
  cases h : validate_pi_gates (strOf "X") (4 * n) t s with
  | error e => simp [h]
  | ok u => cases u; simp [h, eq_comm]

theorem exceptIsOk_iff {ε α : Type} (x : Except ε α) :
    x.isOk = true ↔ ∃ a, x = .ok a := by
  cases x <;> simp [Except.isOk, Except.toBool]

/-- `process_moment` is the inlined per-moment step of `processMoments`. -/
theorem processMoments_cons (cfg : FwdCfg) (buffer : List Str) (m : Moment)
    (rest : Circuit) :
    processMoments cfg buffer (.cons m rest) =
      (process_moment cfg buffer m).bind
        (fun b => processMoments cfg b rest) := by
  cases h : processOps cfg buffer m with
  | error e => simp [processMoments, process_moment, h, except_error_bind, Except.bind]
  | ok buf' =>
      by_cases hc : num_block_in_buffer buf' = num_block_in_buffer buffer ∧
          buf'.length ≠ buffer.length
      · simp [processMoments, process_moment, h, except_ok_bind, Except.bind, hc]
      · simp [processMoments, process_moment, h, except_ok_bind, Except.bind, hc]

theorem digit_not_space {c : Char} (h : isDigitChar c = true) :
    isSpaceChar c = false := by
  simp only [isDigitChar, Bool.and_eq_true, decide_eq_true_eq] at h
  obtain ⟨h1, h2⟩ := h
  simp only [isSpaceChar, Bool.or_eq_false_iff, decide_eq_false_iff_not]
  refine ⟨⟨⟨⟨⟨?_, ?_⟩, ?_⟩, ?_⟩, ?_⟩, ?_⟩ <;> rintro rfl <;> revert h1 <;> decide

theorem digit_ne_space {c : Char} (h : isDigitChar c = true) : c ≠ ' ' := by
  rintro rfl; revert h; decide

theorem digit_ne_nl {c : Char} (h : isDigitChar c = true) : c ≠ '\n' := by
  rintro rfl; revert h; decide

theorem isEmpty_false_ne_nil {α : Type} {l : List α} (h : l.isEmpty = false) :
    l ≠ [] := by
  cases l
  · simp at h
  · exact List.cons_ne_nil _ _

theorem isQTarget_shape {q : Str} (h : isQTarget q = true) :
    ∃ ds, q = 'Q' :: ds ∧ ds ≠ [] ∧ ∀ c ∈ ds, isDigitChar c = true := by
  cases q with
  | nil => exact absurd h (by decide)
  | cons c rest =>
      simp only [isQTarget, Bool.and_eq_true, decide_eq_true_eq,
        Bool.not_eq_true', List.all_eq_true] at h
      obtain ⟨⟨rfl, hne⟩, hall⟩ := h
      exact ⟨rest, rfl, isEmpty_false_ne_nil hne, hall⟩

theorem isGTarget_shape {q : Str} (h : isGTarget q = true) :
    ∃ ds, q = 'G' :: ds ∧ ds ≠ [] ∧ ∀ c ∈ ds, isDigitChar c = true := by
  cases q with
  | nil => exact absurd h (by decide)
  | cons c rest =>
      simp only [isGTarget, Bool.and_eq_true, decide_eq_true_eq,
        Bool.not_eq_true', List.all_eq_true] at h
      obtain ⟨⟨rfl, hne⟩, hall⟩ := h
      exact ⟨rest, rfl, isEmpty_false_ne_nil hne, hall⟩

theorem isQTarget_no_space {q : Str} (h : isQTarget q = true) :
    ∀ c ∈ q, c ≠ ' ' := by
  obtain ⟨ds, rfl, -, hall⟩ := isQTarget_shape h
  intro c hc
  rcases List.mem_cons.mp hc with rfl | hc
  · decide
  · exact digit_ne_space (hall c hc)

theorem isGTarget_no_space {q : Str} (h : isGTarget q = true) :
    ∀ c ∈ q, c ≠ ' ' := by
  obtain ⟨ds, rfl, -, hall⟩ := isGTarget_shape h
  intro c hc
  rcases List.mem_cons.mp hc with rfl | hc
  · decide
  · exact digit_ne_space (hall c hc)

theorem isQTarget_not_G {q : Str} (h : isQTarget q = true) :
    isGTarget q = false := by
  obtain ⟨ds, rfl, -, -⟩ := isQTarget_shape h
  simp [isGTarget]

theorem isGTarget_not_Q {q : Str} (h : isGTarget q = true) :
    isQTarget q = false := by
  obtain ⟨ds, rfl, -, -⟩ := isGTarget_shape h
  simp [isQTarget]

theorem splitLastSpace_of_no_space {l : Str} (h : ∀ c ∈ l, c ≠ ' ') :
    splitLastSpace l = none := by
  induction l with
  | nil => rfl
  | cons c rest ih =>
      rw [splitLastSpace, ih (fun x hx => h x (List.mem_cons_of_mem _ hx))]
      simp [h c (List.mem_cons_self c rest)]

theorem splitLastSpace_append (l t : Str) (ht : ∀ c ∈ t, c ≠ ' ') :
    splitLastSpace (l ++ ' ' :: t) = some (l, t) := by
  induction l with
  | nil =>
      rw [List.nil_append, splitLastSpace, splitLastSpace_of_no_space ht]
      simp
  | cons c rest ih =>
      rw [List.cons_append, splitLastSpace, ih]

theorem matchSingleQubit_yes {c : Char} {grest q : Str}
    (hup : isUpperChar c = true) (hM : c ≠ 'M') (hq : isQTarget q = true) :
    matchSingleQubit ((c :: grest) ++ ' ' :: q) = some (c :: grest, q) := by
  rw [matchSingleQubit, splitLastSpace_append _ _ (isQTarget_no_space hq)]
  simp [hup, hM, hq]

theorem matchSingleQubit_to_coupler {gate g : Str} (hg : isGTarget g = true) :
    matchSingleQubit (gate ++ ' ' :: g) = none := by
  rw [matchSingleQubit, splitLastSpace_append _ _ (isGTarget_no_space hg)]
  simp [isGTarget_not_Q hg]

theorem matchCouplerLine_yes {c : Char} {grest g : Str}
    (hletter : isLetterChar c = true) (hne : grest ≠ []) (hg : isGTarget g = true) :
    matchCouplerLine ((c :: grest) ++ ' ' :: g) = some (c :: grest, g) := by
  rw [matchCouplerLine, splitLastSpace_append _ _ (isGTarget_no_space hg)]
  simp [hletter, hne, hg]

theorem any_isPrefixOf_false {ign : List Str} {line : Str}
    (h : ∀ ins ∈ ign, ¬ ins.isPrefixOf line) :
    (ign.any (fun ins => ins.isPrefixOf line)) = false := by
  rw [List.any_eq_false]
  intro ins hins
  simp [h ins hins]

theorem processOperation_cz_missing {K : CMap} {ign : List Str} {st : RevSt}
    {g : Str} (hg : isGTarget g = true)
    (hign : ∀ ins ∈ ign, ¬ ins.isPrefixOf (strOf "CZ " ++ g))
    (hget : dictGet K g = none) :
    processOperation K ign st (strOf "CZ " ++ g) =
      .error (.missingCouplerOf g) := by
  have hline : strOf "CZ " ++ g = ('C' :: ['Z']) ++ ' ' :: g := rfl
  rw [processOperation, if_neg (by rw [any_isPrefixOf_false hign]; simp)]
  rw [hline, matchSingleQubit_to_coupler hg,
    matchCouplerLine_yes (by decide) (by decide) hg]
  show (GateTable.to_cirq (strOf "CZ") >>= _) = _
  rw [show GateTable.to_cirq (strOf "CZ") = .ok .CZ from rfl]
  show (match dictGet K g with
    | none => Except.error (Err.missingCouplerOf g)
    | some qubit_pair => _) = _
  rw [hget]

theorem processOperation_cz_found {K : CMap} {ign : List Str} {st : RevSt}
    {g a b : Str} (hg : isGTarget g = true)
    (hign : ∀ ins ∈ ign, ¬ ins.isPrefixOf (strOf "CZ " ++ g))
    (hget : dictGet K g = some (a, b)) :
    processOperation K ign st (strOf "CZ " ++ g) =
      .ok { st with tick := appendOpEarliest st.tick (.cz a b) } := by
  have hline : strOf "CZ " ++ g = ('C' :: ['Z']) ++ ' ' :: g := rfl
  rw [processOperation, if_neg (by rw [any_isPrefixOf_false hign]; simp)]
  rw [hline, matchSingleQubit_to_coupler hg,
    matchCouplerLine_yes (by decide) (by decide) hg]
  show (GateTable.to_cirq (strOf "CZ") >>= _) = _
  rw [show GateTable.to_cirq (strOf "CZ") = .ok .CZ from rfl]
  show (match dictGet K g with
    | none => Except.error (Err.missingCouplerOf g)
    | some qubit_pair => _) = _
  rw [hget]

theorem runLines_append (K : CMap) (ign : List Str) (xs ys : List Str)
    (m : RevMode) (st : RevSt) :
    runLines K ign (xs ++ ys) m st =
      (runLines K ign xs m st).bind (fun p => runLines K ign ys p.1 p.2) := by
  induction xs generalizing m st with
  | nil => simp [runLines, Except.bind]
  | cons l rest ih =>
      rw [List.cons_append]
      show (stepLine K ign m st l >>= _) =
        ((stepLine K ign m st l >>= _) : Except Err (RevMode × RevSt)).bind _
      cases h : stepLine K ign m st l with
      | error e => simp [h, except_error_bind, Except.bind]
      | ok p =>
          rcases p with ⟨m', st'⟩
          simp only [h, except_ok_bind, Except.bind]
          exact ih m' st'

theorem Moment.toList_ne_nil {m : Moment} (h : m ≠ .nil) : m.toList ≠ [] := by
  cases m
  · exact absurd rfl h
  · simp [Moment.toList]

theorem Moment.ofList_toList : ∀ m : Moment, Moment.ofList m.toList = m
  | .nil => rfl
  | .cons op rest => by
      simp [Moment.toList, Moment.ofList, Moment.ofList_toList rest]

theorem Circuit.nil_append (c : Circuit) : Circuit.nil.append c = c := rfl

theorem Circuit.append_cons_nil :
    ∀ (F : Circuit) (m : Moment) (r : Circuit),
      (F.append (.cons m .nil)).append r = F.append (.cons m r)
  | .nil, m, r => by simp [Circuit.append]
  | .cons m' rest, m, r => by
      simp [Circuit.append, Circuit.append_cons_nil rest m r]

theorem opcode_chars : ∀ g : SQGate, ∀ c ∈ g.opcode, c ≠ '\n' ∧ c ≠ ' ' ∧
    isSpaceChar c = false := by
  intro g
  cases g <;> decide

theorem opcode_head : ∀ g : SQGate, ∃ c rest, g.opcode = c :: rest ∧
    isUpperChar c = true ∧ c ≠ 'M' ∧ c ≠ 'B' ∧ c ≠ '#' ∧ isSpaceChar c = false := by
  intro g
  cases g
  · exact ⟨'X', _, rfl, by decide, by decide, by decide, by decide, by decide⟩
  · exact ⟨'Y', _, rfl, by decide, by decide, by decide, by decide, by decide⟩
  · exact ⟨'X', _, rfl, by decide, by decide, by decide, by decide, by decide⟩
  · exact ⟨'X', _, rfl, by decide, by decide, by decide, by decide, by decide⟩
  · exact ⟨'Y', _, rfl, by decide, by decide, by decide, by decide, by decide⟩
  · exact ⟨'Y', _, rfl, by decide, by decide, by decide, by decide, by decide⟩

theorem to_cirq_opcode : ∀ g : SQGate, GateTable.to_cirq g.opcode = .ok g.toCirq := by
  intro g
  cases g <;> rfl

theorem sqOfCirq_toCirq : ∀ g : SQGate, sqOfCirq g.toCirq = some g := by
  intro g
  cases g <;> rfl

theorem processOp_simple {K : CMap} {op : Operation} (bl : List Str)
    (buffer : List Str) (h : SimpleOp K op) :
    processOp ⟨bl, some K⟩ buffer op = .ok (buffer ++ [simpleLineOf K op]) := by
  cases h with
  | sq g q hq => rfl
  | cz a b g ha hb hg hfwd hrev =>
      show (match pairCoupler (some K) a b with
        | none => Except.error (Err.missingCoupler a b)
        | some coupler => Except.ok (buffer ++ [strOf "CZ " ++ coupler])) = _
      rw [hfwd]
      simp [simpleLineOf, hfwd]
  | meas qs hne hq => rfl

theorem processOps_simple {K : CMap} (bl : List Str) :
    ∀ (m : Moment) (buffer : List Str), (∀ op ∈ m.toList, SimpleOp K op) →
    processOps ⟨bl, some K⟩ buffer m = .ok (buffer ++ momentLinesOf K m)
  | .nil, buffer, h => by
      simp [processOps, momentLinesOf, Moment.toList]
  | .cons op rest, buffer, h => by
      have hop : SimpleOp K op := h op (by simp [Moment.toList])
      show (processOp ⟨bl, some K⟩ buffer op >>=
        fun b => processOps ⟨bl, some K⟩ b rest) = _
      rw [processOp_simple bl buffer hop, except_ok_bind,
        processOps_simple bl rest _ (fun o ho => h o (by simp [Moment.toList, ho]))]
      simp [momentLinesOf, Moment.toList]

theorem num_block_append (b1 b2 : List Str) :
    num_block_in_buffer (b1 ++ b2) =
      num_block_in_buffer b1 + num_block_in_buffer b2 :=
  List.countP_append _ _ _

theorem num_block_no_B {lines : List Str}
    (h : ∀ l ∈ lines, l.head? ≠ some 'B') :
    num_block_in_buffer lines = 0 := by
  rw [num_block_in_buffer, List.countP_eq_zero]
  intro l hl
  simp [h l hl]

theorem simpleLine_head {K : CMap} {op : Operation} (h : SimpleOp K op) :
    ∃ c rest, simpleLineOf K op = c :: rest ∧ c ≠ 'B' ∧ c ≠ '#' ∧
      isSpaceChar c = false := by
  cases h with
  | sq g q hq =>
      obtain ⟨c, grest, hop, -, -, hB, hhash, hsp⟩ := opcode_head g
      exact ⟨c, grest ++ [' '] ++ q, by simp [simpleLineOf, hop], hB, hhash, hsp⟩
  | cz a b g ha hb hg hfwd hrev =>
      exact ⟨'C', _, rfl, by decide, by decide, by decide⟩
  | meas qs hne hq =>
      exact ⟨'M', _, rfl, by decide, by decide, by decide⟩

theorem momentLines_no_B {K : CMap} {m : Moment}
    (h : ∀ op ∈ m.toList, SimpleOp K op) :
    ∀ l ∈ momentLinesOf K m, l.head? ≠ some 'B' := by
  intro l hl
  rw [momentLinesOf, List.mem_map] at hl
  obtain ⟨op, hop, rfl⟩ := hl
  obtain ⟨c, rest, heq, hB, -, -⟩ := simpleLine_head (h op hop)
  rw [heq]
  simp [hB]

theorem process_moment_simple {K : CMap} (bl : List Str) {m : Moment}
    (buffer : List Str) (hm : SimpleMoment K m) :
    process_moment ⟨bl, some K⟩ buffer m =
      .ok (buffer ++ (momentLinesOf K m ++ [blockLine bl])) := by
  obtain ⟨hne, hops, -⟩ := hm
  have hlines : momentLinesOf K m ≠ [] := by
    rw [momentLinesOf]
    simp [Moment.toList_ne_nil hne]
  rw [process_moment]
  show (processOps ⟨bl, some K⟩ buffer m >>= _) = _
  rw [processOps_simple bl m buffer hops, except_ok_bind]
  rw [if_pos]
  · simp
  constructor
  · rw [num_block_append, num_block_no_B (momentLines_no_B hops)]
    omega
  · simp [hlines]

theorem processMoments_simple {K : CMap} (bl : List Str) :
    ∀ (c : Circuit) (buffer : List Str), (∀ m ∈ c.toList, SimpleMoment K m) →
    processMoments ⟨bl, some K⟩ buffer c =
      .ok (buffer ++ circuitLinesOf K bl c)
  | .nil, buffer, h => by
      simp [processMoments, circuitLinesOf, Circuit.toList]
  | .cons m rest, buffer, h => by
      have hm : SimpleMoment K m := h m (by simp [Circuit.toList])
      rw [processMoments_cons, process_moment_simple bl buffer hm, Except.bind,
        processMoments_simple bl rest _
          (fun m' hm' => h m' (by simp [Circuit.toList, hm']))]
      simp [circuitLinesOf, Circuit.toList]

theorem dropWhile_id_of_head {p : Char → Bool} {l : Str}
    (h : ∀ c, l.head? = some c → p c = false) : l.dropWhile p = l := by
  cases l with
  | nil => rfl
  | cons c rest => rw [List.dropWhile_cons, if_neg (by simp [h c rfl])]

theorem dropWhile_append_of_neg {p : Char → Bool} {c : Char} (hc : p c = false)
    (xs ys : Str) :
    List.dropWhile p (xs ++ c :: ys) = List.dropWhile p xs ++ c :: ys := by
  induction xs with
  | nil => simp [List.dropWhile_cons, hc]
  | cons x xs ih =>
      rw [List.cons_append, List.dropWhile_cons, List.dropWhile_cons]
      by_cases hx : p x
      · simp [hx, ih]
      · simp [hx]

theorem strip_eq_self {l : Str}
    (h1 : ∀ c, l.head? = some c → isSpaceChar c = false)
    (h2 : ∀ c, l.getLast? = some c → isSpaceChar c = false) :
    strip l = l := by
  unfold strip
  rw [dropWhile_id_of_head h1,
    dropWhile_id_of_head (fun c hc => h2 c (by rwa [List.head?_reverse] at hc)),
    List.reverse_reverse]

theorem strip_head_of_nonspace {c : Char} (hc : isSpaceChar c = false)
    (rest : Str) : ∃ t, strip (c :: rest) = c :: t := by
  unfold strip
  have h1 : List.dropWhile isSpaceChar (c :: rest) = c :: rest :=
    dropWhile_id_of_head (fun d hd => by
      rw [List.head?_cons, Option.some.injEq] at hd
      rwa [← hd])
  rw [h1, List.reverse_cons, dropWhile_append_of_neg hc]
  refine ⟨(List.dropWhile isSpaceChar rest.reverse).reverse, ?_⟩
  rw [List.reverse_append]
  rfl

theorem qtarget_getLast {q : Str} (h : isQTarget q = true) :
    ∃ d, q.getLast? = some d ∧ isDigitChar d = true := by
  obtain ⟨ds, rfl, hne, hall⟩ := isQTarget_shape h
  refine ⟨ds.getLast hne, ?_, hall _ (List.getLast_mem hne)⟩
  rw [show ('Q' :: ds) = ['Q'] ++ ds from rfl,
    List.getLast?_append_of_ne_nil _ hne, List.getLast?_eq_getLast _ hne]

theorem joinWith_snoc {sep : Str} {ls : List Str} {x : Str} (h : ls ≠ []) :
    joinWith sep (ls ++ [x]) = joinWith sep ls ++ sep ++ x := by
  induction ls with
  | nil => exact absurd rfl h
  | cons l rest ih =>
      cases rest with
      | nil => simp [joinWith]
      | cons r rrest =>
          rw [show (l :: r :: rrest) ++ [x] = l :: ((r :: rrest) ++ [x]) from rfl,
            show joinWith sep (l :: ((r :: rrest) ++ [x])) =
              l ++ sep ++ joinWith sep ((r :: rrest) ++ [x]) from rfl,
            ih (by simp),
            show joinWith sep (l :: r :: rrest) =
              l ++ sep ++ joinWith sep (r :: rrest) from rfl]
          simp

theorem joinWith_chars {sep : Str} {ls : List Str} {c : Char} :
    c ∈ joinWith sep ls → c ∈ sep ∨ ∃ l ∈ ls, c ∈ l := by
  induction ls with
  | nil => intro h; exact absurd h (List.not_mem_nil c)
  | cons l rest ih =>
      cases rest with
      | nil =>
          intro h
          exact Or.inr ⟨l, by simp, h⟩
      | cons r rrest =>
          intro h
          rw [show joinWith sep (l :: r :: rrest) = l ++ sep ++ joinWith sep (r :: rrest)
            from rfl] at h
          rcases List.mem_append.mp h with h | h
          · rcases List.mem_append.mp h with h | h
            · exact Or.inr ⟨l, by simp, h⟩
            · exact Or.inl h
          · rcases ih h with h | ⟨l', hl', hc⟩
            · exact Or.inl h
            · exact Or.inr ⟨l', by simp [hl'], hc⟩

theorem joinWith_getLast {sep : Str} {init : List Str} {x : Str} (hx : x ≠ []) :
    (joinWith sep (init ++ [x])).getLast? = x.getLast? := by
  cases init with
  | nil => simp [joinWith]
  | cons l rest =>
      rw [joinWith_snoc (by simp), List.getLast?_append_of_ne_nil _ hx]

theorem findQsAux_digits {ds : Str} (rest acc : Str)
    (h : ∀ c ∈ ds, isDigitChar c = true) :
    findQsAux (ds ++ rest) (some acc) = findQsAux rest (some (acc ++ ds)) := by
  induction ds generalizing acc with
  | nil => simp
  | cons d ds' ih =>
      rw [List.cons_append, findQsAux, if_pos (h d (by simp)),
        ih _ (fun c hc => h c (by simp [hc]))]
      simp

theorem findQsAux_space {rest ds : Str} (hne : ds ≠ []) :
    findQsAux (' ' :: rest) (some ds) = ('Q' :: ds) :: findQsAux rest none := by
  rw [findQsAux, if_neg (by decide), if_neg (by simp [hne]), if_neg (by decide)]

theorem findQsAux_end {ds : Str} (hne : ds ≠ []) :
    findQsAux [] (some ds) = ['Q' :: ds] := by
  rw [findQsAux, if_neg (by simp [hne])]

theorem findQs_join {qs : List Str} (hne : qs ≠ [])
    (hq : ∀ q ∈ qs, isQTarget q = true) :
    findQsAux (joinWith [' '] qs) none = qs := by
  induction qs with
  | nil => exact absurd rfl hne
  | cons q rest ih =>
      obtain ⟨ds, hq_eq, hdne, hdig⟩ := isQTarget_shape (hq q (by simp))
      cases rest with
      | nil =>
          rw [show joinWith [' '] [q] = q from rfl, hq_eq, findQsAux,
            if_pos rfl, show ds = ds ++ [] by simp, findQsAux_digits [] [] hdig]
          simp [findQsAux_end hdne]
      | cons r rrest =>
          rw [show joinWith [' '] (q :: r :: rrest) =
              q ++ [' '] ++ joinWith [' '] (r :: rrest) from rfl, hq_eq]
          rw [List.append_assoc, List.cons_append, findQsAux, if_pos rfl,
            findQsAux_digits _ [] hdig]
          rw [show ([] : Str) ++ ds = ds from rfl,
            show [' '] ++ joinWith [' '] (r :: rrest) =
              ' ' :: joinWith [' '] (r :: rrest) from rfl,
            findQsAux_space hdne,
            ih (by simp) (fun x hx => hq x (by simp [hx]))]

theorem findQs_measline {qs : List Str} (hne : qs ≠ [])
    (hq : ∀ q ∈ qs, isQTarget q = true) :
    findQs (strOf "M " ++ joinWith [' '] qs) = qs := by
  show findQsAux ('M' :: ' ' :: joinWith [' '] qs) none = qs
  rw [findQsAux, if_neg (by decide), findQsAux, if_neg (by decide)]
  exact findQs_join hne hq

theorem matchSingleQubit_head_M {rest : Str} :
    matchSingleQubit ('M' :: rest) = none := by
  rw [matchSingleQubit, splitLastSpace]
  cases h : splitLastSpace rest with
  | none => simp
  | some p =>
      rcases p with ⟨g, t⟩
      simp

theorem measline_split {qs : List Str} (hne : qs ≠ [])
    (hq : ∀ q ∈ qs, isQTarget q = true) :
    ∃ pre x, strOf "M " ++ joinWith [' '] qs = pre ++ ' ' :: x ∧
      isQTarget x = true ∧
      splitLastSpace (strOf "M " ++ joinWith [' '] qs) = some (pre, x) := by
  rcases List.eq_nil_or_concat qs with rfl | ⟨init, x, rfl⟩
  · exact absurd rfl hne
  · have hx : isQTarget x = true := hq x (by simp)
    cases init with
    | nil =>
        refine ⟨['M'], x, rfl, hx, ?_⟩
        exact splitLastSpace_append ['M'] x (isQTarget_no_space hx)
    | cons i irest =>
        simp only [List.concat_eq_append] at hne hq ⊢
        refine ⟨strOf "M " ++ joinWith [' '] (i :: irest), x, ?_, hx, ?_⟩
        · rw [joinWith_snoc (by simp)]
          simp
        · rw [joinWith_snoc (by simp)]
          rw [show strOf "M " ++ (joinWith [' '] (i :: irest) ++ [' '] ++ x) =
            (strOf "M " ++ joinWith [' '] (i :: irest)) ++ ' ' :: x by simp]
          exact splitLastSpace_append _ x (isQTarget_no_space hx)

theorem matchCouplerLine_measline {qs : List Str} (hne : qs ≠ [])
    (hq : ∀ q ∈ qs, isQTarget q = true) :
    matchCouplerLine (strOf "M " ++ joinWith [' '] qs) = none := by
  obtain ⟨pre, x, -, hx, hsplit⟩ := measline_split hne hq
  rw [matchCouplerLine, hsplit]
  simp [isQTarget_not_G hx]

theorem matchMeasLine_measline {qs : List Str} (hq : ∀ q ∈ qs, isQTarget q = true) :
    matchMeasLine (strOf "M " ++ joinWith [' '] qs) = true := by
  have hall : ∀ c ∈ (' ' :: joinWith [' '] qs),
      (isSpaceChar c || c = 'Q' || isDigitChar c || c = '+') = true := by
    intro c hc
    rcases List.mem_cons.mp hc with rfl | hc
    · decide
    · rcases joinWith_chars hc with hsep | ⟨q, hqmem, hcq⟩
      · rcases List.mem_singleton.mp hsep with rfl
        decide
      · obtain ⟨ds, rfl, -, hdig⟩ := isQTarget_shape (hq q hqmem)
        rcases List.mem_cons.mp hcq with rfl | hcd
        · decide
        · simp [hdig c hcd]
  show (!(' ' :: joinWith [' '] qs).isEmpty &&
    (' ' :: joinWith [' '] qs).all
      (fun c => isSpaceChar c || c = 'Q' || isDigitChar c || c = '+')) = true
  simp only [List.isEmpty_cons, Bool.not_false, Bool.true_and, List.all_eq_true]
  exact hall

theorem gtarget_getLast {q : Str} (h : isGTarget q = true) :
    ∃ d, q.getLast? = some d ∧ isDigitChar d = true := by
  obtain ⟨ds, rfl, hne, hall⟩ := isGTarget_shape h
  refine ⟨ds.getLast hne, ?_, hall _ (List.getLast_mem hne)⟩
  rw [show ('G' :: ds) = ['G'] ++ ds from rfl,
    List.getLast?_append_of_ne_nil _ hne, List.getLast?_eq_getLast _ hne]

theorem simpleLine_getLast {K : CMap} {op : Operation} (h : SimpleOp K op) :
    ∃ d, (simpleLineOf K op).getLast? = some d ∧ isSpaceChar d = false := by
  cases h with
  | sq g q hq =>
      obtain ⟨d, hd, hdig⟩ := qtarget_getLast hq
      have hqne : q ≠ [] := by
        obtain ⟨ds, rfl, -, -⟩ := isQTarget_shape hq
        simp
      refine ⟨d, ?_, digit_not_space hdig⟩
      show (SQGate.opcode g ++ [' '] ++ q).getLast? = some d
      rw [List.getLast?_append_of_ne_nil _ hqne, hd]
  | cz a b g ha hb hg hfwd hrev =>
      obtain ⟨d, hd, hdig⟩ := gtarget_getLast hg
      have hgne : g ≠ [] := by
        obtain ⟨ds, rfl, -, -⟩ := isGTarget_shape hg
        simp
      refine ⟨d, ?_, digit_not_space hdig⟩
      show (strOf "CZ " ++ (pairCoupler (some K) a b).getD []).getLast? = some d
      rw [hfwd]
      show (strOf "CZ " ++ g).getLast? = some d
      rw [List.getLast?_append_of_ne_nil _ hgne, hd]
  | meas qs hne hq =>
      obtain ⟨pre, x, heq, hx, -⟩ := measline_split hne hq
      obtain ⟨d, hd, hdig⟩ := qtarget_getLast hx
      have hxne : x ≠ [] := by
        obtain ⟨ds, rfl, -, -⟩ := isQTarget_shape hx
        simp
      refine ⟨d, ?_, digit_not_space hdig⟩
      show (strOf "M " ++ joinWith [' '] qs).getLast? = some d
      rw [heq, show pre ++ ' ' :: x = (pre ++ [' ']) ++ x by simp,
        List.getLast?_append_of_ne_nil _ hxne, hd]

theorem strip_simpleLine {K : CMap} {op : Operation} (h : SimpleOp K op) :
    strip (simpleLineOf K op) = simpleLineOf K op := by
  obtain ⟨c, rest, heq, -, -, hsp⟩ := simpleLine_head h
  obtain ⟨d, hd, hdsp⟩ := simpleLine_getLast h
  refine strip_eq_self ?_ ?_
  · intro e he
    rw [heq] at he
    rw [List.head?_cons, Option.some.injEq] at he
    rwa [← he]
  · intro e he
    rw [hd, Option.some.injEq] at he
    rwa [← he]

theorem appendOpEarliest_single {ops : List Operation} {op : Operation}
    (h : momOverlaps ops op = false) :
    appendOpEarliest [ops] op = [ops ++ [op]] := by
  have hfind : List.findIdx? (fun m => momOverlaps m op) [ops] = none := by
    simp [List.findIdx?_cons, h]
  rw [appendOpEarliest, placeIdx,
    show ([ops] : List (List Operation)).reverse = [ops] from rfl, hfind]
  rfl

theorem processOperation_simple {K : CMap} {op : Operation} (st : RevSt)
    (h : SimpleOp K op) :
    processOperation K [] st (simpleLineOf K op) =
      .ok { st with tick := appendOpEarliest st.tick op } := by
  cases h with
  | sq g q hq =>
      obtain ⟨c, grest, hop, hup, hM, -, -, -⟩ := opcode_head g
      have hmatch : matchSingleQubit (simpleLineOf K (.sq g q)) =
          some (c :: grest, q) := by
        show matchSingleQubit (SQGate.opcode g ++ [' '] ++ q) = _
        rw [hop, List.append_assoc, List.singleton_append]
        exact matchSingleQubit_yes hup hM hq
      have hcirq : GateTable.to_cirq (c :: grest) = .ok g.toCirq := by
        rw [← hop]
        exact to_cirq_opcode g
      simp [processOperation, hmatch, hcirq, sqOfCirq_toCirq, except_ok_bind]
  | cz a b g ha hb hg hfwd hrev =>
      have hline : simpleLineOf K (.cz a b) = strOf "CZ " ++ g := by
        show strOf "CZ " ++ (pairCoupler (some K) a b).getD [] = _
        rw [hfwd]
        rfl
      rw [hline]
      exact processOperation_cz_found hg (by simp) hrev
  | meas qs hne hq =>
      have hm1 : matchSingleQubit (strOf "M " ++ joinWith [' '] qs) = none :=
        matchSingleQubit_head_M
      have hne2 : qs.isEmpty = false := by
        cases qs
        · exact absurd rfl hne
        · rfl
      show processOperation K [] st (strOf "M " ++ joinWith [' '] qs) = _
      simp [processOperation, hm1, matchCouplerLine_measline hne hq,
        matchMeasLine_measline hq, findQs_measline hne hq, hne2]

theorem stepLine_simple {K : CMap} {op : Operation} (st : RevSt)
    (h : SimpleOp K op) :
    stepLine K [] .normal st (simpleLineOf K op) =
      .ok (.normal, { st with tick := appendOpEarliest st.tick op,
                              endWithBlock := false }) := by
  obtain ⟨c, rest, heq, hB, hhash, -⟩ := simpleLine_head h
  have hctx : simpleLineOf K op ≠ CONTEXT_START := by
    rw [heq]
    intro hEq
    have hc : some c = some '#' := congrArg List.head? hEq
    exact hhash (Option.some.inj hc)
  have hh : (simpleLineOf K op).head? ≠ some '#' := by
    rw [heq]
    simp [hhash]
  have hb : (simpleLineOf K op).head? ≠ some 'B' := by
    rw [heq]
    simp [hB]
  simp [stepLine, strip_simpleLine h, hctx, hh, hb,
    processOperation_simple st h, except_ok_bind]

theorem stepLine_block {K : CMap} (ign : List Str) (st : RevSt) (bl : List Str) :
    stepLine K ign .normal st (blockLine bl) =
      .ok (.normal, { processBlockSt st with endWithBlock := true }) := by
  obtain ⟨t, hstrip⟩ :=
    strip_head_of_nonspace (by decide : isSpaceChar 'B' = false)
      (' ' :: joinWith [' '] bl)
  have hstrip2 : strip (blockLine bl) = 'B' :: t := hstrip
  have hctx : strip (blockLine bl) ≠ CONTEXT_START := by
    rw [hstrip2]
    intro hEq
    have hc : some 'B' = some '#' := congrArg List.head? hEq
    exact absurd (Option.some.inj hc) (by decide)
  have hh : (strip (blockLine bl)).head? ≠ some '#' := by
    rw [hstrip2]
    simp
  have hb : (strip (blockLine bl)).head? = some 'B' := by
    rw [hstrip2]
    rfl
  simp [stepLine, hctx, hh, hb]

theorem Circuit.append_nil : ∀ c : Circuit, c.append .nil = c
  | .nil => rfl
  | .cons m rest => by simp [Circuit.append, Circuit.append_nil rest]

theorem opsOverlap_eq_false_of_disjoint {o p : Operation}
    (h : ∀ q ∈ o.targets, q ∉ p.targets) : opsOverlap o p = false := by
  rw [opsOverlap, List.any_eq_false]
  intro q hq
  simp [h q hq]

theorem pending_disjoint {pending rest : List Operation} {op : Operation}
    (h : ((pending ++ op :: rest).map Operation.targets).flatten.Nodup) :
    ∀ o ∈ pending, opsOverlap o op = false := by
  intro o ho
  have hpair := (List.nodup_flatten.mp h).2
  rw [List.map_append, List.pairwise_append] at hpair
  obtain ⟨-, -, hcross⟩ := hpair
  have hdisj := hcross (Operation.targets o) (List.mem_map_of_mem _ ho)
    (Operation.targets op) (by simp)
  exact opsOverlap_eq_false_of_disjoint (fun q hq hq2 => hdisj hq hq2)

theorem appendOpEarliest_tickOf {pending : List Operation} {op : Operation}
    (h : ∀ o ∈ pending, opsOverlap o op = false) :
    appendOpEarliest (tickOf pending) op = tickOf (pending ++ [op]) := by
  cases pending with
  | nil => rfl
  | cons p ps =>
      have hmo : momOverlaps (p :: ps) op = false := by
        rw [momOverlaps, List.any_eq_false]
        intro o ho
        simp [h o ho]
      show appendOpEarliest [p :: ps] op = [(p :: ps) ++ [op]]
      exact appendOpEarliest_single hmo

theorem runLines_ops {K : CMap} :
    ∀ (ops : List Operation) (pending : List Operation) (F : Circuit) (eb : Bool),
      (∀ op ∈ ops, SimpleOp K op) →
      ((pending ++ ops).map Operation.targets).flatten.Nodup →
      runLines K [] (ops.map (simpleLineOf K)) .normal ⟨F, tickOf pending, eb⟩ =
        .ok (.normal, ⟨F, tickOf (pending ++ ops),
          if ops.isEmpty then eb else false⟩)
  | [], pending, F, eb, _, _ => by
      simp [runLines]
  | op :: ops, pending, F, eb, hops, hnd => by
      have hdisj : ∀ o ∈ pending, opsOverlap o op = false :=
        pending_disjoint hnd
      have hnd2 :
          (((pending ++ [op]) ++ ops).map Operation.targets).flatten.Nodup := by
        rw [List.append_assoc, List.singleton_append]
        exact hnd
      have hrec := runLines_ops ops (pending ++ [op]) F false
        (fun o ho => hops o (List.mem_cons_of_mem _ ho)) hnd2
      rw [List.map_cons]
      show (stepLine K [] .normal ⟨F, tickOf pending, eb⟩ (simpleLineOf K op) >>=
        fun p => runLines K [] (ops.map (simpleLineOf K)) p.1 p.2) = _
      rw [stepLine_simple _ (hops op (List.mem_cons_self op ops)), except_ok_bind]
      show runLines K [] (ops.map (simpleLineOf K)) .normal
        ⟨F, appendOpEarliest (tickOf pending) op, false⟩ = _
      rw [appendOpEarliest_tickOf hdisj, hrec, List.append_assoc,
        List.singleton_append, ite_self]
      rfl

theorem runLines_circuit {K : CMap} (bl : List Str) :
    ∀ (c : Circuit) (F : Circuit) (eb : Bool),
      (∀ m ∈ c.toList, SimpleMoment K m) →
      runLines K [] (circuitLinesOf K bl c) .normal ⟨F, [], eb⟩ =
        .ok (.normal, ⟨F.append c, [],
          if c = Circuit.nil then eb else true⟩)
  | .nil, F, eb, _ => by
      simp [circuitLinesOf, Circuit.toList, runLines, Circuit.append_nil]
  | .cons m rest, F, eb, hms => by
      obtain ⟨hmne, hops, hnd⟩ := hms m (by simp [Circuit.toList])
      have h3 : m.toList.isEmpty = false := by
        cases hm : m.toList
        · exact absurd hm (Moment.toList_ne_nil hmne)
        · rfl
      have hlines : circuitLinesOf K bl (.cons m rest) =
          momentLinesOf K m ++ ([blockLine bl] ++ circuitLinesOf K bl rest) := by
        show ((m :: rest.toList).map
          (fun m => momentLinesOf K m ++ [blockLine bl])).flatten = _
        rw [List.map_cons, List.flatten_cons, List.append_assoc]
        rfl
      have h1 : runLines K [] (momentLinesOf K m) .normal
          ⟨F, ([] : List (List Operation)), eb⟩ =
          .ok (.normal, ⟨F, tickOf m.toList, false⟩) := by
        have h2 := runLines_ops m.toList [] F eb hops (by simpa using hnd)
        simp only [h3, Bool.false_eq_true, if_false] at h2
        exact h2
      have ht : tickOf m.toList = [m.toList] := by
        simp [tickOf, h3]
      have hpb : processBlockSt ⟨F, tickOf m.toList, false⟩ =
          ⟨F.append (.cons m .nil), [], false⟩ := by
        simp [processBlockSt, ht, Circuit.ofMomentLists, Circuit.ofList,
          List.map_cons, Moment.ofList_toList]
      have hblock : runLines K [] [blockLine bl] .normal
          ⟨F, tickOf m.toList, false⟩ =
          .ok (.normal, ⟨F.append (.cons m .nil), [], true⟩) := by
        show (stepLine K [] .normal ⟨F, tickOf m.toList, false⟩ (blockLine bl) >>=
          fun p => runLines K [] ([] : List Str) p.1 p.2) = _
        rw [stepLine_block, hpb]
        rfl
      rw [hlines, runLines_append, h1]
      show runLines K [] ([blockLine bl] ++ circuitLinesOf K bl rest) .normal
        ⟨F, tickOf m.toList, false⟩ = _
      rw [runLines_append, hblock]
      show runLines K [] (circuitLinesOf K bl rest) .normal
        ⟨F.append (.cons m .nil), [], true⟩ = _
      rw [runLines_circuit bl rest (F.append (.cons m .nil)) true
        (fun m2 hm2 => hms m2 (List.mem_cons_of_mem _ hm2)),
        Circuit.append_cons_nil, ite_self,
        if_neg (fun hEq => Circuit.noConfusion hEq)]

theorem splitOnChar_sep_free {sep : Char} :
    ∀ {l : Str}, sep ∉ l → ∀ rest : Str,
      splitOnChar sep (l ++ sep :: rest) = l :: splitOnChar sep rest
  | [], _, rest => by
      show splitOnChar sep (sep :: rest) = [] :: splitOnChar sep rest
      simp [splitOnChar]
  | c :: cs, h, rest => by
      have hc : ¬ (c = sep) := fun hEq => h (by
        rw [← hEq]
        exact List.mem_cons_self c cs)
      have htail : sep ∉ cs := fun hm => h (List.mem_cons_of_mem c hm)
      show (if c = sep then [] :: splitOnChar sep (cs ++ sep :: rest)
        else match splitOnChar sep (cs ++ sep :: rest) with
        | [] => [[c]]
        | f :: fs => (c :: f) :: fs) = (c :: cs) :: splitOnChar sep rest
      rw [if_neg hc, splitOnChar_sep_free htail rest]

theorem splitOnChar_terminated {sep : Char} :
    ∀ L : List Str, L ≠ [] → (∀ l ∈ L, sep ∉ l) →
      splitOnChar sep (joinWith [sep] L ++ [sep]) = L ++ [[]]
  | [], h, _ => absurd rfl h
  | [x], _, hfree => by
      show splitOnChar sep (x ++ sep :: []) = [x, []]
      rw [splitOnChar_sep_free (hfree x (by simp)) []]
      rfl
  | x :: y :: rest, _, hfree => by
      have hx : sep ∉ x := hfree x (by simp)
      show splitOnChar sep
        ((x ++ [sep] ++ joinWith [sep] (y :: rest)) ++ [sep]) = _
      rw [List.append_assoc, List.append_assoc, List.singleton_append,
        splitOnChar_sep_free hx (joinWith [sep] (y :: rest) ++ [sep]),
        splitOnChar_terminated (y :: rest) (by simp)
          (fun l hl => hfree l (List.mem_cons_of_mem _ hl))]
      rfl

theorem filter_nonempty_terminated {L : List Str} (h : ∀ l ∈ L, l ≠ []) :
    (L ++ [[]]).filter (fun l => !l.isEmpty) = L := by
  rw [List.filter_append,
    show List.filter (fun l => !l.isEmpty) [([] : Str)] = [] from rfl,
    List.append_nil]
  apply List.filter_eq_self.mpr
  intro l hl
  cases l with
  | nil => exact absurd rfl (h [] hl)
  | cons a t => rfl

theorem simpleLine_no_nl {K : CMap} {op : Operation} (h : SimpleOp K op) :
    ('\n' : Char) ∉ simpleLineOf K op := by
  cases h with
  | sq g q hq =>
      show ('\n' : Char) ∉ SQGate.opcode g ++ [' '] ++ q
      intro hmem
      rcases List.mem_append.mp hmem with hm | hm
      · rcases List.mem_append.mp hm with hm2 | hm2
        · exact (opcode_chars g '\n' hm2).1 rfl
        · exact absurd (List.mem_singleton.mp hm2) (by decide)
      · obtain ⟨ds, hq2, -, hdig⟩ := isQTarget_shape hq
        rw [hq2] at hm
        rcases List.mem_cons.mp hm with h1 | h1
        · exact absurd h1 (by decide)
        · exact absurd (hdig '\n' h1) (by decide)
  | cz a b g ha hb hg hfwd hrev =>
      have hline : simpleLineOf K (.cz a b) = strOf "CZ " ++ g := by
        show strOf "CZ " ++ (pairCoupler (some K) a b).getD [] = _
        rw [hfwd]
        rfl
      rw [hline]
      intro hmem
      rcases List.mem_append.mp hmem with hm | hm
      · exact absurd hm (by decide)
      · obtain ⟨ds, hg2, -, hdig⟩ := isGTarget_shape hg
        rw [hg2] at hm
        rcases List.mem_cons.mp hm with h1 | h1
        · exact absurd h1 (by decide)
        · exact absurd (hdig '\n' h1) (by decide)
  | meas qs hne hq =>
      show ('\n' : Char) ∉ strOf "M " ++ joinWith [' '] qs
      intro hmem
      rcases List.mem_append.mp hmem with hm | hm
      · exact absurd hm (by decide)
      · rcases joinWith_chars hm with hs | ⟨l, hl, hcm⟩
        · exact absurd hs (by decide)
        · obtain ⟨ds, hq2, -, hdig⟩ := isQTarget_shape (hq l hl)
          rw [hq2] at hcm
          rcases List.mem_cons.mp hcm with h1 | h1
          · exact absurd h1 (by decide)
          · exact absurd (hdig '\n' h1) (by decide)

theorem blockLine_no_nl {bl : List Str} (hbl : ∀ n ∈ bl, ('\n' : Char) ∉ n) :
    ('\n' : Char) ∉ blockLine bl := by
  show ('\n' : Char) ∉ strOf "B " ++ joinWith [' '] bl
  intro hmem
  rcases List.mem_append.mp hmem with hm | hm
  · exact absurd hm (by decide)
  · rcases joinWith_chars hm with hs | ⟨l, hl, hcm⟩
    · exact absurd hs (by decide)
    · exact hbl l hl hcm

theorem circuitLines_no_nl {K : CMap} {bl : List Str} {c : Circuit}
    (hc : ∀ m ∈ c.toList, SimpleMoment K m)
    (hbl : ∀ n ∈ bl, ('\n' : Char) ∉ n) :
    ∀ l ∈ circuitLinesOf K bl c, ('\n' : Char) ∉ l := by
  intro l hl
  rcases List.mem_flatten.mp hl with ⟨chunk, hchunk, hlc⟩
  rcases List.mem_map.mp hchunk with ⟨m, hm, hmk⟩
  rw [← hmk] at hlc
  rcases List.mem_append.mp hlc with h1 | h1
  · rcases List.mem_map.mp h1 with ⟨op2, hop2, hopk⟩
    rw [← hopk]
    exact simpleLine_no_nl ((hc m hm).2.1 op2 hop2)
  · rw [List.mem_singleton.mp h1]
    exact blockLine_no_nl hbl

theorem circuitLines_ne_nil {K : CMap} {bl : List Str} {c : Circuit}
    (hc : ∀ m ∈ c.toList, SimpleMoment K m) :
    ∀ l ∈ circuitLinesOf K bl c, l ≠ [] := by
  intro l hl
  rcases List.mem_flatten.mp hl with ⟨chunk, hchunk, hlc⟩
  rcases List.mem_map.mp hchunk with ⟨m, hm, hmk⟩
  rw [← hmk] at hlc
  rcases List.mem_append.mp hlc with h1 | h1
  · rcases List.mem_map.mp h1 with ⟨op2, hop2, hopk⟩
    obtain ⟨ch, rest2, heq2, -, -, -⟩ := simpleLine_head ((hc m hm).2.1 op2 hop2)
    rw [← hopk, heq2]
    exact List.cons_ne_nil ch rest2
  · rw [List.mem_singleton.mp h1]
    exact List.cons_ne_nil 'B' _

theorem blockLine_mem_circuitLines (K : CMap) (bl : List Str) (m : Moment)
    (rest : Circuit) : blockLine bl ∈ circuitLinesOf K bl (.cons m rest) := by
  apply List.mem_flatten.mpr
  refine ⟨momentLinesOf K m ++ [blockLine bl], ?_, ?_⟩
  · exact List.mem_map_of_mem _ (List.mem_cons_self m rest.toList)
  · exact List.mem_append_right _ (List.mem_singleton.mpr rfl)

theorem qcis_to_cirq_roundtrip {K : CMap} {bl : List Str} {c : Circuit}
    (hc : SimpleCircuit K c) (hbl : ∀ n ∈ bl, ('\n' : Char) ∉ n) :
    qcis_to_cirq (joinWith ['\n'] (circuitLinesOf K bl c) ++ ['\n'])
      (some K) [] = .ok c := by
  obtain ⟨hcne, hms⟩ := hc
  obtain ⟨m, rest, hcr⟩ : ∃ m rest, c = .cons m rest := by
    cases c
    · exact absurd rfl hcne
    · exact ⟨_, _, rfl⟩
  have hLne : circuitLinesOf K bl c ≠ [] := by
    rw [hcr]
    intro hnil
    have hb := blockLine_mem_circuitLines K bl m rest
    rw [hnil] at hb
    exact absurd hb (List.not_mem_nil _)
  have hsplit : splitOnChar '\n'
      (joinWith ['\n'] (circuitLinesOf K bl c) ++ ['\n']) =
      circuitLinesOf K bl c ++ [[]] :=
    splitOnChar_terminated _ hLne (circuitLines_no_nl hms hbl)
  have hfilter : (circuitLinesOf K bl c ++ [[]]).filter (fun l => !l.isEmpty) =
      circuitLinesOf K bl c :=
    filter_nonempty_terminated (circuitLines_ne_nil hms)
  show qcisToCirqLines K []
    ((splitOnChar '\n' (joinWith ['\n'] (circuitLinesOf K bl c) ++
      ['\n'])).filter (fun l => !l.isEmpty)) = .ok c
  rw [hsplit, hfilter, qcisToCirqLines,
    runLines_circuit bl c Circuit.nil false hms,
    if_neg (show ¬ c = Circuit.nil from hcne)]
  rfl

/-! The claims. -/

theorem evalDescriptor_roundtrip {g : DDGate} (h : ValidDD g) :
    evalDescriptor (ddDescriptor g) = .ok g := by
  rcases h with ⟨n, t, s, a, hg⟩ | ⟨n, t, s, hg⟩ | ⟨n, t, s, hg⟩
  · obtain ⟨hv, rfl⟩ := mkCPMG_ok_iff.mp hg
    show mkCPMG n t s a = _
    exact mkCPMG_ok_iff.mpr ⟨hv, rfl⟩
  · obtain ⟨hv, rfl⟩ := mkXY_ok_iff.mp hg
    show mkXY n t s = _
    exact mkXY_ok_iff.mpr ⟨hv, rfl⟩
  · obtain ⟨hv, rfl⟩ := mkXYYX_ok_iff.mp hg
    show mkXYYX n t s = _
    exact mkXYYX_ok_iff.mpr ⟨hv, rfl⟩

theorem pyName_inj : ∀ k k' : DDClass, k.pyName = k'.pyName ↔ k = k' := by
  intro k k'
  cases k <;> cases k' <;> decide

theorem validDD_fields {g : DDGate} (h : ValidDD g) :
    valueEqualityValues g = (g.numPair, g.totalNs, g.singleNs, g.piGate) ∧
    g.idleNs = calc_idle_ns_before_after_pi
      ((match g.klass with | .CPMG => 2 | .XY => 2 | .XYYX => 4) * g.numPair)
      g.totalNs g.singleNs := by
  rcases h with ⟨n, t, s, a, hg⟩ | ⟨n, t, s, hg⟩ | ⟨n, t, s, hg⟩
  · obtain ⟨-, rfl⟩ := mkCPMG_ok_iff.mp hg
    exact ⟨rfl, by push_cast; rfl⟩
  · obtain ⟨-, rfl⟩ := mkXY_ok_iff.mp hg
    exact ⟨rfl, by push_cast; rfl⟩
  · obtain ⟨-, rfl⟩ := mkXYYX_ok_iff.mp hg
    exact ⟨rfl, by push_cast; rfl⟩

theorem ddValueEq_characterization {g g' : DDGate}
    (h : ValidDD g) (h' : ValidDD g') :
    (ddValueEq g g' = true ↔ ddDescriptor g = ddDescriptor g') ∧
    (ddValueEq g g' = true → g = g') := by
  obtain ⟨hv, hid⟩ := validDD_fields h
  obtain ⟨hv', hid'⟩ := validDD_fields h'
  have hiff : ddValueEq g g' = true ↔
      (g.klass = g'.klass ∧ g.numPair = g'.numPair ∧ g.totalNs = g'.totalNs ∧
        g.singleNs = g'.singleNs ∧ g.piGate = g'.piGate) := by
    rw [ddValueEq, Bool.and_eq_true, beq_iff_eq, beq_iff_eq, hv, hv']
    simp [Prod.ext_iff, and_assoc]
  constructor
  · rw [hiff]
    simp only [ddDescriptor, DDescriptor.mk.injEq, pyName_inj]
  · rw [hiff]
    rintro ⟨h1, h2, h3, h4, h5⟩
    have hidle : g.idleNs = g'.idleNs := by
      rw [hid, hid', h1, h2, h3, h4]
    cases g; cases g'
    simp_all

/-- C9: for every validly constructed dynamical-decoupling gate (CPMG, XY,
XYYX), evaluating its own descriptor against the registered constructor —
as the reverse translator's context handler does — reconstructs a gate
equal to the original, and equality between two such gates is determined
solely by their constructor parameters (exactly the descriptor contents),
not by the computed idle time. -/
theorem C9_descriptor_roundtrip_and_equality :
    ∀ g g' : DDGate, ValidDD g → ValidDD g' →
      evalDescriptor (ddDescriptor g) = .ok g ∧
      (ddValueEq g g' = true ↔ ddDescriptor g = ddDescriptor g') ∧
      (ddValueEq g g' = true → g = g') :=
  fun _ _ h h' =>
    ⟨evalDescriptor_roundtrip h, (ddValueEq_characterization h h').1,
      (ddValueEq_characterization h h').2⟩

/-- Witness for C9 at `CPMG(num_pi_pair=2, total_duration_ns=1000)`. -/
theorem C9_descriptor_roundtrip_and_equality_witness :
    evalDescriptor (ddDescriptor ⟨.CPMG, 2, 1000, 50, some (strOf "X"), 100⟩) =
      .ok ⟨.CPMG, 2, 1000, 50, some (strOf "X"), 100⟩ ∧
    (ddValueEq ⟨.CPMG, 2, 1000, 50, some (strOf "X"), 100⟩
        ⟨.CPMG, 2, 1000, 50, some (strOf "X"), 100⟩ = true ↔
      ddDescriptor ⟨.CPMG, 2, 1000, 50, some (strOf "X"), 100⟩ =
        ddDescriptor ⟨.CPMG, 2, 1000, 50, some (strOf "X"), 100⟩) ∧
    (ddValueEq ⟨.CPMG, 2, 1000, 50, some (strOf "X"), 100⟩
        ⟨.CPMG, 2, 1000, 50, some (strOf "X"), 100⟩ = true →
      (⟨.CPMG, 2, 1000, 50, some (strOf "X"), 100⟩ : DDGate) =
        ⟨.CPMG, 2, 1000, 50, some (strOf "X"), 100⟩) := by
  have hval : ValidDD ⟨.CPMG, 2, 1000, 50, some (strOf "X"), 100⟩ := by
    refine Or.inl ⟨2, 1000, 50, strOf "X", mkCPMG_ok_iff.mpr ⟨?_, ?_⟩⟩
    · exact validate_pi_gates_ok_iff.mpr ⟨by decide, by norm_num, by norm_num⟩
    · have h : calc_idle_ns_before_after_pi (2 * (2 : Nat)) 1000 50 = 100 := by
        norm_num [calc_idle_ns_before_after_pi]
      rw [h]
  exact C9_descriptor_roundtrip_and_equality _ _ hval hval

/-- C3: in the forward direction, a CZ operation whose qubit pair has no
registered coupler (in particular when the coupler map is omitted, making
`pairCoupler` vacuously empty) fails with the coupler-missing error, and a
registered pair resolves the operation to the single coupler name in the
emitted line; in the reverse direction, a `CZ G..` line whose coupler name
is not in the map fails with the coupler-missing error, and a registered
name resolves the operation to the registered qubit pair. -/
theorem C3_coupler_requirement :
    (∀ (cfg : FwdCfg) (buffer : List Str) (a b : Str),
        pairCoupler cfg.couplers a b = none →
        processOp cfg buffer (.cz a b) = .error (.missingCoupler a b)) ∧
    (∀ (cfg : FwdCfg) (buffer : List Str) (a b g : Str),
        pairCoupler cfg.couplers a b = some g →
        processOp cfg buffer (.cz a b) = .ok (buffer ++ [strOf "CZ " ++ g])) ∧
    (∀ (K : CMap) (ign : List Str) (st : RevSt) (g : Str),
        isGTarget g = true →
        (∀ ins ∈ ign, ¬ ins.isPrefixOf (strOf "CZ " ++ g)) →
        dictGet K g = none →
        processOperation K ign st (strOf "CZ " ++ g) =
          .error (.missingCouplerOf g)) ∧
    (∀ (K : CMap) (ign : List Str) (st : RevSt) (g a b : Str),
        isGTarget g = true →
        (∀ ins ∈ ign, ¬ ins.isPrefixOf (strOf "CZ " ++ g)) →
        dictGet K g = some (a, b) →
        processOperation K ign st (strOf "CZ " ++ g) =
          .ok { st with tick := appendOpEarliest st.tick (.cz a b) }) := by
  refine ⟨?_, ?_, ?_, ?_⟩
  · intro cfg buffer a b h
    rw [processOp, h]
  · intro cfg buffer a b g h
    rw [processOp, h]
  · intro K ign st g hg hign hget
    exact processOperation_cz_missing hg hign hget
  · intro K ign st g a b hg hign hget
    exact processOperation_cz_found hg hign hget

/-- Witness for C3 at concrete inputs: a CZ on `(Q01, Q02)` with no coupler
map fails, with `G01` registered it emits `CZ G01`; reversing `CZ G01`
fails without the map entry and reconstructs the registered pair with it. -/
theorem C3_coupler_requirement_witness :
    processOp ⟨[], none⟩ [] (.cz (strOf "Q01") (strOf "Q02")) =
      .error (.missingCoupler (strOf "Q01") (strOf "Q02")) ∧
    processOp ⟨[], some [(strOf "G01", (strOf "Q01", strOf "Q02"))]⟩ []
        (.cz (strOf "Q01") (strOf "Q02")) =
      .ok ([] ++ [strOf "CZ " ++ strOf "G01"]) ∧
    processOperation [] [] ⟨.nil, [], false⟩ (strOf "CZ " ++ strOf "G01") =
      .error (.missingCouplerOf (strOf "G01")) ∧
    processOperation [(strOf "G01", (strOf "Q01", strOf "Q02"))] []
        ⟨.nil, [], false⟩ (strOf "CZ " ++ strOf "G01") =
      .ok { (⟨.nil, [], false⟩ : RevSt) with
        tick := appendOpEarliest ([] : List (List Operation))
          (.cz (strOf "Q01") (strOf "Q02")) } :=
  ⟨C3_coupler_requirement.1 ⟨[], none⟩ [] _ _ rfl,
   C3_coupler_requirement.2.1 ⟨[], some [(strOf "G01", (strOf "Q01", strOf "Q02"))]⟩
     [] _ _ _ rfl,
   C3_coupler_requirement.2.2.1 [] [] _ _ (by decide) (by simp) rfl,
   C3_coupler_requirement.2.2.2 [(strOf "G01", (strOf "Q01", strOf "Q02"))] []
     _ _ _ _ (by decide) (by simp) rfl⟩

/-- C8 counterexample: the line `Z Q00` carries an opcode outside the gate
table and is in no ignore set, yet reverse translation fails with the gate
table's unknown-opcode error, not with `UnrecognizedInstruction` — the
line still matches the single-qubit instruction pattern, so the failure
comes from the table lookup. -/
theorem C8_unknown_opcode_counterexample :
    qcis_to_cirq (strOf "Z Q00\n")
        (some [(strOf "G0100", (strOf "Q00", strOf "Q01"))]) [] =
      .error (.unknownOpcode (strOf "Z")) ∧
    Err.unknownOpcode (strOf "Z") ≠ .unrecognizedInstruction (strOf "Z Q00") :=
  ⟨rfl, by decide⟩

/-- C8 (amended): a non-empty line reaching the instruction parser that
starts with no ignored prefix and matches none of the three instruction
patterns fails with `UnrecognizedInstruction`; an unrecognized opcode
whose line nevertheless matches the single-qubit pattern fails with the
gate table's unknown-opcode error instead. -/
theorem C8_unrecognized_line :
    (∀ (K : CMap) (ign : List Str) (st : RevSt) (line : Str),
        (∀ ins ∈ ign, ¬ ins.isPrefixOf line) →
        matchSingleQubit line = none →
        matchCouplerLine line = none →
        matchMeasLine line = false →
        processOperation K ign st line =
          .error (.unrecognizedInstruction line)) ∧
    (∀ (K : CMap) (ign : List Str) (st : RevSt) (c : Char) (grest q : Str),
        (∀ ins ∈ ign, ¬ ins.isPrefixOf ((c :: grest) ++ ' ' :: q)) →
        isUpperChar c = true → c ≠ 'M' → isQTarget q = true →
        GateTable.to_cirq (c :: grest) = .error (.unknownOpcode (c :: grest)) →
        processOperation K ign st ((c :: grest) ++ ' ' :: q) =
          .error (.unknownOpcode (c :: grest))) := by
  constructor
  · intro K ign st line hign h1 h2 h3
    rw [processOperation, if_neg (by rw [any_isPrefixOf_false hign]; simp)]
    rw [h1, h2]
    show (if matchMeasLine line = true then _ else _) = _
    rw [if_neg (by simp [h3])]
  · intro K ign st c grest q hign hup hM hq htab
    rw [processOperation, if_neg (by rw [any_isPrefixOf_false hign]; simp)]
    rw [matchSingleQubit_yes hup hM hq]
    show (GateTable.to_cirq (c :: grest) >>= _) = _
    rw [htab]
    rfl

/-- Witness for C8 (amended): the whitespace line `++` matches no pattern
and fails as unrecognized; `FOO Q01` matches the single-qubit pattern but
the opcode is unknown. -/
theorem C8_unrecognized_line_witness :
    processOperation [] [] ⟨.nil, [], false⟩ (strOf "++") =
      .error (.unrecognizedInstruction (strOf "++")) ∧
    processOperation [] [] ⟨.nil, [], false⟩
        (('F' :: strOf "OO") ++ ' ' :: strOf "Q01") =
      .error (.unknownOpcode ('F' :: strOf "OO")) :=
  ⟨C8_unrecognized_line.1 [] [] _ _ (by simp) rfl rfl rfl,
   C8_unrecognized_line.2 [] [] _ 'F' _ _ (by simp) (by decide) (by decide)
     (by decide) rfl⟩

/-- C10: a line matching an ignored-instruction prefix is discarded without
adding an operation, but it still clears the `end_with_block` flag; so when
the processed input ends just after a barrier (flag set, tick circuit
empty), appending such an ignored line makes the end-of-input commit add
one extra empty time step, while the input without the trailing ignored
line yields the circuit as committed. -/
theorem C10_trailing_ignored_line :
    ∀ (K : CMap) (ign : List Str) (lines : List Str) (lg : Str) (st : RevSt),
      runLines K ign lines .normal ⟨.nil, [], false⟩ = .ok (.normal, st) →
      st.endWithBlock = true →
      st.tick = [] →
      strip lg ≠ [] →
      (strip lg).head? ≠ some '#' →
      (strip lg).head? ≠ some 'B' →
      (∃ ins ∈ ign, ins.isPrefixOf (strip lg)) →
      qcisToCirqLines K ign (lines ++ [lg]) =
        .ok (st.full.append (.cons .nil .nil)) ∧
      qcisToCirqLines K ign lines = .ok st.full := by
  intro K ign lines lg st hrun heb htick hne hhash hB hig
  have hctx : strip lg ≠ CONTEXT_START := by
    intro hEq
    exact hhash (by rw [hEq]; rfl)
  have hop : processOperation K ign st (strip lg) = .ok st := by
    rw [processOperation, if_pos]
    obtain ⟨ins, hins, hpre⟩ := hig
    exact List.any_eq_true.mpr ⟨ins, hins, by simp [hpre]⟩
  have hstep : stepLine K ign .normal st lg =
      .ok (.normal, { st with endWithBlock := false }) := by
    rw [stepLine]
    show (if strip lg = CONTEXT_START then _
      else if (strip lg).head? = some '#' then _
      else if (strip lg).head? = some 'B' then _ else _) = _
    rw [if_neg hctx, if_neg hhash, if_neg hB]
    show (processOperation K ign st (strip lg) >>= _) = _
    rw [hop]
    rfl
  constructor
  · have h1 : runLines K ign [lg] RevMode.normal st =
        .ok (.normal, { st with endWithBlock := false }) := by
      show (stepLine K ign .normal st lg >>= fun p => runLines K ign [] p.1 p.2) = _
      rw [hstep]
      rfl
    rw [qcisToCirqLines, runLines_append, hrun]
    show (runLines K ign [lg] RevMode.normal st >>= _ : Except Err Circuit) = _
    rw [h1, except_ok_bind]
    show Except.ok (processBlockSt { st with endWithBlock := false }).full = _
    simp only [processBlockSt, htick]
    rfl
  · rw [qcisToCirqLines, hrun, except_ok_bind]
    show Except.ok (if st.endWithBlock then st else processBlockSt st).full = _
    rw [heb]
    simp

/-- Witness for C10: after `X2P Q01` and a barrier, a trailing ignored
`I Q01 100` line leaves one extra empty time step behind. -/
theorem C10_trailing_ignored_line_witness :
    qcisToCirqLines [] [strOf "I"]
        ([strOf "X2P Q01", strOf "B Q01"] ++ [strOf "I Q01 100"]) =
      .ok ((Circuit.cons (.cons (.sq .SqrtX (strOf "Q01")) .nil) .nil).append
        (.cons .nil .nil)) ∧
    qcisToCirqLines [] [strOf "I"] [strOf "X2P Q01", strOf "B Q01"] =
      .ok (Circuit.cons (.cons (.sq .SqrtX (strOf "Q01")) .nil) .nil) :=
  C10_trailing_ignored_line [] [strOf "I"]
    [strOf "X2P Q01", strOf "B Q01"] (strOf "I Q01 100")
    ⟨Circuit.cons (.cons (.sq .SqrtX (strOf "Q01")) .nil) .nil, [], true⟩
    rfl rfl rfl (by decide) (by decide) (by decide)
    ⟨strOf "I", by simp, by decide⟩

/-- C2: forward-translating the two-moment circuit (moment 1: 90°-Y on `A`
and −90°-Y on `B`; moment 2: CZ on `(A,B)` resolved through coupler `G01`)
with blockable resource set `[A, B, R]` yields exactly the five lines
`Y2P A`, `Y2M B`, `B A B R`, `CZ G01`, `B A B R`, newline-terminated. -/
theorem C2_scenario_forward :
    cirq_to_qcis
      (.cons (.cons (.sq .SqrtY (strOf "A")) (.cons (.sq .SqrtYInv (strOf "B")) .nil))
        (.cons (.cons (.cz (strOf "A") (strOf "B")) .nil) .nil))
      [strOf "A", strOf "B", strOf "R"]
      (some [(strOf "G01", (strOf "A", strOf "B"))]) =
    .ok (strOf "Y2P A\nY2M B\nB A B R\nCZ G01\nB A B R\n") := rfl

/-- C4: the idle-duration computation floors the per-pulse duration first,
then floors the subtraction of the single-pulse duration, then halves
without flooring, in that exact order; and `CPMG` with 2 pi-pairs
(4 pulses), 1000 ns total, 50 ns per pulse and axis X emits an edge idle of
100 ns before the first and after the last pulse and inner idles of 200 ns
between consecutive pulses, matching `floor(floor(1000/4 − 50)/2) = 100`
(the final halving is exact here, so the outer floor of the spec's formula
is immaterial). -/
theorem C4_idle_order_and_cpmg_timing :
    (∀ (num_gates : Int) (total single : ℚ),
        calc_idle_ns_before_after_pi num_gates total single =
          ((⌊((⌊total / (num_gates : ℚ)⌋ : Int) : ℚ) - single⌋ : Int) : ℚ) / 2) ∧
    calc_idle_ns_before_after_pi 4 1000 50 = 100 ∧
    (∃ g, mkCPMG 2 1000 50 (strOf "X") = .ok g ∧ g.idleNs = 100 ∧
      ddConversionBody g [strOf "Q00"] =
        .ok (strOf ("I Q00 100\nX Q00\nI Q00 200\nX Q00\nI Q00 200\n" ++
          "X Q00\nI Q00 200\nX Q00\nI Q00 100"))) := by
  have hidle : calc_idle_ns_before_after_pi 4 1000 50 = 100 := by
    norm_num [calc_idle_ns_before_after_pi]
  refine ⟨fun _ _ _ => rfl, hidle, ?_⟩
  refine ⟨⟨.CPMG, 2, 1000, 50, some (strOf "X"), 100⟩, ?_, rfl, ?_⟩
  · refine mkCPMG_ok_iff.mpr ⟨?_, ?_⟩
    · exact validate_pi_gates_ok_iff.mpr ⟨by decide, by norm_num, by norm_num⟩
    · have h : calc_idle_ns_before_after_pi (2 * (2 : Nat)) 1000 50 = 100 := by
        norm_num
        exact hidle
      rw [h]
  · have h2 : (2 : ℚ) * 100 = 200 := by norm_num
    simp only [ddConversionBody, piPulseSequence]
    rw [h2]
    decide

/-- C5: constructing any of the three dynamical-decoupling gates fails at
construction time exactly when the pulse axis is not `X` or `Y`, or the
total pulse count is below one, or the pulses do not fit strictly inside
the total duration; when all three conditions hold, construction succeeds.
The pulse count is `2*pairs` for CPMG and XY and `4*pairs` for XYYX, and
the fixed axis of XY and XYYX is `X`. -/
theorem C5_construction_validation :
    ∀ (n : Nat) (t s : ℚ) (axis : Str),
      ((mkCPMG n t s axis).isOk = true ↔
        (axis ∈ VALID_PI_GATE ∧ 1 ≤ 2 * n ∧ ((2 * n : Nat) : ℚ) * s < t)) ∧
      ((mkXY n t s).isOk = true ↔
        (strOf "X" ∈ VALID_PI_GATE ∧ 1 ≤ 2 * n ∧ ((2 * n : Nat) : ℚ) * s < t)) ∧
      ((mkXYYX n t s).isOk = true ↔
        (strOf "X" ∈ VALID_PI_GATE ∧ 1 ≤ 4 * n ∧ ((4 * n : Nat) : ℚ) * s < t)) := by
  intro n t s axis
  refine ⟨?_, ?_, ?_⟩
  · rw [exceptIsOk_iff]
    constructor
    · rintro ⟨g, hg⟩
      obtain ⟨hv, -⟩ := mkCPMG_ok_iff.mp hg
      obtain ⟨h1, h2, h3⟩ := validate_pi_gates_ok_iff.mp hv
      refine ⟨h1, by omega, by push_cast at h3 ⊢; exact h3⟩
    · rintro ⟨h1, h2, h3⟩
      exact ⟨_, mkCPMG_ok_iff.mpr ⟨validate_pi_gates_ok_iff.mpr
        ⟨h1, by omega, by push_cast at h3 ⊢; exact h3⟩, rfl⟩⟩
  · rw [exceptIsOk_iff]
    constructor
    · rintro ⟨g, hg⟩
      obtain ⟨hv, -⟩ := mkXY_ok_iff.mp hg
      obtain ⟨h1, h2, h3⟩ := validate_pi_gates_ok_iff.mp hv
      refine ⟨h1, by omega, by push_cast at h3 ⊢; exact h3⟩
    · rintro ⟨h1, h2, h3⟩
      exact ⟨_, mkXY_ok_iff.mpr ⟨validate_pi_gates_ok_iff.mpr
        ⟨h1, by omega, by push_cast at h3 ⊢; exact h3⟩, rfl⟩⟩
  · rw [exceptIsOk_iff]
    constructor
    · rintro ⟨g, hg⟩
      obtain ⟨hv, -⟩ := mkXYYX_ok_iff.mp hg
      obtain ⟨h1, h2, h3⟩ := validate_pi_gates_ok_iff.mp hv
      refine ⟨h1, by omega, by push_cast at h3 ⊢; exact h3⟩
    · rintro ⟨h1, h2, h3⟩
      exact ⟨_, mkXYYX_ok_iff.mpr ⟨validate_pi_gates_ok_iff.mpr
        ⟨h1, by omega, by push_cast at h3 ⊢; exact h3⟩, rfl⟩⟩

/-- C6: the text the forward translator emits for a sub-circuit reference
with repetition count `k ≥ 1` is exactly `k` literal concatenations of the
buffer obtained by forward-translating the inner circuit once with an
independent child helper. -/
theorem C6_repetition_linearity :
    ∀ (cfg : FwdCfg) (buffer : List Str) (inner : Circuit) (k : Nat),
      1 ≤ k →
      processOp cfg buffer (.subcircuit inner k) =
        (processMoments cfg [] inner).map
          (fun child => buffer ++ (List.replicate k child).flatten) := by
  intro cfg buffer inner k _
  cases h : processMoments cfg [] inner with
  | error e => simp [processOp, h, except_error_bind, Except.map]
  | ok child => simp [processOp, h, except_ok_bind, Except.map]

/-- Witness for C6 at a concrete input. -/
theorem C6_repetition_linearity_witness :
    processOp ⟨[], none⟩ [] (.subcircuit .nil 1) =
      (processMoments ⟨[], none⟩ [] .nil).map
        (fun child => [] ++ (List.replicate 1 child).flatten) :=
  C6_repetition_linearity ⟨[], none⟩ [] .nil 1 (by decide)

/-- C7: after the operations of a moment, a barrier over the full blockable
set is appended exactly when the buffer grew and the number of `B`-entries
of the buffer did not change; the suppression is decided by comparing
`num_block_in_buffer` before and after, not text content. -/
theorem C7_moment_barrier :
    ∀ (cfg : FwdCfg) (buffer : List Str) (m : Moment) (buf' : List Str),
      processOps cfg buffer m = .ok buf' →
      process_moment cfg buffer m =
        .ok (if num_block_in_buffer buf' = num_block_in_buffer buffer ∧
                buf'.length ≠ buffer.length
             then buf' ++ [blockLine cfg.all_blockable_qagents]
             else buf') := by
  intro cfg buffer m buf' h
  by_cases hc : num_block_in_buffer buf' = num_block_in_buffer buffer ∧
      buf'.length ≠ buffer.length
  · simp [process_moment, h, except_ok_bind, hc]
  · simp [process_moment, h, except_ok_bind, hc]

/-- Witness for C7 at a concrete input: a one-operation moment gets its
barrier, since the buffer grew and no `B`-entry was added. -/
theorem C7_moment_barrier_witness :
    processOps ⟨[strOf "Q01"], none⟩ [] (.cons (.sq .SqrtX (strOf "Q01")) .nil) =
      .ok [strOf "X2P Q01"] ∧
    process_moment ⟨[strOf "Q01"], none⟩ [] (.cons (.sq .SqrtX (strOf "Q01")) .nil) =
      .ok (if num_block_in_buffer [strOf "X2P Q01"] = num_block_in_buffer [] ∧
              (strOf "X2P Q01" :: []).length ≠ ([] : List Str).length
           then [strOf "X2P Q01"] ++ [blockLine [strOf "Q01"]]
           else [strOf "X2P Q01"]) :=
  ⟨rfl, C7_moment_barrier ⟨[strOf "Q01"], none⟩ [] _ [strOf "X2P Q01"] rfl⟩

/-- C1 (counterexample to the claim as stated): the two-moment circuit whose
second moment is empty contains no custom gates and no idle instructions,
yet the forward translation emits no text for the empty moment, so the
reverse translation of the output is the one-moment circuit, not the
original: the round trip is not the identity on every such circuit. -/
theorem C1_roundtrip_counterexample :
    cirq_to_qcis (Circuit.cons (Moment.cons (.sq .SqrtX (strOf "Q01")) .nil)
        (Circuit.cons Moment.nil Circuit.nil)) [strOf "Q01"] (some []) =
      .ok (strOf "X2P Q01\nB Q01\n") ∧
    qcis_to_cirq (strOf "X2P Q01\nB Q01\n") (some []) [] =
      .ok (Circuit.cons (Moment.cons (.sq .SqrtX (strOf "Q01")) .nil)
        Circuit.nil) ∧
    Circuit.cons (Moment.cons (.sq .SqrtX (strOf "Q01")) .nil) Circuit.nil ≠
      Circuit.cons (Moment.cons (.sq .SqrtX (strOf "Q01")) .nil)
        (Circuit.cons Moment.nil Circuit.nil) :=
  ⟨by decide, by decide, by decide⟩

/-- C1 (amended): for every nonempty circuit of nonempty moments whose
operations are table single-qubit gates on `Q`-names, `CZ` pairs registered
consistently in both directions of the coupler map, and measurements keyed
by the comma-joined qubit names, with pairwise-disjoint targets per moment
and newline-free blockable names, reverse-translating the forward
translation (with the same coupler map supplied to both directions) returns
the original circuit. -/
theorem C1_roundtrip_simple (K : CMap) (bl : List Str) (c : Circuit)
    (hc : SimpleCircuit K c) (hbl : ∀ n ∈ bl, ('\n' : Char) ∉ n) :
    ∃ out, cirq_to_qcis c bl (some K) = .ok out ∧
      qcis_to_cirq out (some K) [] = .ok c := by
  refine ⟨joinWith ['\n'] (circuitLinesOf K bl c) ++ ['\n'], ?_, ?_⟩
  · rw [cirq_to_qcis, processMoments_simple bl c [] hc.2]
    rfl
  · exact qcis_to_cirq_roundtrip hc hbl

/-- Witness for C1 (amended) at a concrete input. -/
theorem C1_roundtrip_simple_witness :
    ∃ out, cirq_to_qcis (Circuit.cons (Moment.cons
        (.sq .SqrtX (strOf "Q01")) .nil) .nil) [strOf "Q01"] (some []) =
        .ok out ∧
      qcis_to_cirq out (some []) [] = .ok (Circuit.cons (Moment.cons
        (.sq .SqrtX (strOf "Q01")) .nil) .nil) :=
  C1_roundtrip_simple [] [strOf "Q01"]
    (Circuit.cons (Moment.cons (.sq .SqrtX (strOf "Q01")) .nil) .nil)
    ⟨fun hEq => Circuit.noConfusion hEq,
     fun m hm => by
       rw [List.mem_singleton.mp hm]
       refine ⟨fun hEq => Moment.noConfusion hEq, fun op hop => ?_, by decide⟩
       rw [List.mem_singleton.mp hop]
       exact SimpleOp.sq .SqrtX (strOf "Q01") (by decide)⟩
    (by decide)

end Qciscirq
